import Mathlib

set_option maxHeartbeats 1000000
set_option maxRecDepth 8000

/- Rational arithmetic is used to model JavaScript numbers; the library
marks its kernel-level operations irreducible, which blocks evaluation of
concrete catalog runs by decide, so restore default reducibility for them. -/
set_option allowUnsafeReducibility true
attribute [semireducible] Rat.add Rat.mul Rat.sub Rat.neg Rat.inv Rat.div Rat.ofScientific

/-! Shallow embedding of the catalog reconciliation engine of src/index.js
(field normalization, row classification, product reconciliation, catalog
building, and the featured-selection pipeline), together with theorems
settling the specification claims about it.

Spreadsheet cells are modelled as loosely typed JavaScript values: null,
a finite number (modelled as a rational), or a string.  JavaScript NaN is
modelled as the `none` case of `Option ℚ` where it can arise (the result
of coercing a non-numeric string with `Number`).  The JavaScript string
functions used by the source (trim, toLowerCase, toUpperCase, includes,
split, replace with the patterns appearing in the source) are embedded for
the ASCII subset that the catalog data lives in; `Number(string)` is
embedded for plain decimal literals with optional sign and fraction, which
is the fragment reachable from the source's already-sanitized inputs. -/

/-- A loosely typed spreadsheet cell / JavaScript value: null (also used for
an absent field), a finite number, or a string. -/
inductive JSValue where
  | vNull : JSValue
  | vNum : ℚ → JSValue
  | vStr : String → JSValue
  deriving DecidableEq, Repr

/-- JavaScript truthiness of a cell value: null, 0 and the empty string are
falsy, everything else is truthy. -/
def truthy : JSValue → Bool
  | .vNull => false
  | .vNum q => decide (q ≠ 0)
  | .vStr s => decide (s ≠ "")

/-- JavaScript `a || b`: the first operand when truthy, otherwise the second. -/
def jsOr (a b : JSValue) : JSValue := if truthy a then a else b

/-- ASCII decimal digit test (the regex class `\d`). -/
def isDigitCh (c : Char) : Bool := decide ('0' ≤ c) && decide (c ≤ '9')

/-- Numeric value of a decimal digit character. -/
def digVal (c : Char) : ℕ := c.toNat - 48

/-- Value of a list of decimal digit characters, most significant first. -/
def digitsVal (l : List Char) : ℕ := l.foldl (fun a c => 10 * a + digVal c) 0

/-- Decimal digit characters of a positive natural number (empty for 0),
most significant first, with explicit recursion fuel; the recursion peels
the last digit.  Any fuel of at least the number itself is enough. -/
def natCharsF : ℕ → ℕ → List Char
  | _, 0 => []
  | 0, _ + 1 => []
  | f + 1, n + 1 => natCharsF f ((n + 1) / 10) ++ [Char.ofNat (48 + (n + 1) % 10)]

/-- Decimal digit characters of a positive natural number (empty for 0). -/
def natChars (n : ℕ) : List Char := natCharsF n n

/-- JavaScript rendering of a natural number. -/
def natToStr (n : ℕ) : String := if n = 0 then "0" else String.mk (natChars n)

/-- JavaScript rendering of an integer. -/
def intToStr (z : ℤ) : String :=
  if z < 0 then "-" ++ natToStr z.natAbs else natToStr z.natAbs

/-- Smallest exponent k ≤ 40 with d dividing 10 ^ k, if one exists. -/
def decExp (d : ℕ) : Option ℕ := (List.range 41).find? fun k => decide (10 ^ k % d = 0)

/-- JavaScript `String(q)` for a finite number, for the fragment with a
terminating decimal expansion (the integers and short decimals that occur in
the sheets); rationals outside that fragment fall back to an inert
numerator/denominator rendering that the pipeline never produces. -/
def ratToStr (q : ℚ) : String :=
  if q.den = 1 then intToStr q.num
  else
    match decExp q.den with
    | none => intToStr q.num ++ "/" ++ natToStr q.den
    | some k =>
      let scaled : ℕ := q.num.natAbs * 10 ^ k / q.den
      let ds0 := natChars scaled
      let ds := List.replicate (k + 1 - ds0.length) '0' ++ ds0
      let s := String.mk (ds.take (ds.length - k)) ++ "." ++ String.mk (ds.drop (ds.length - k))
      if q.num < 0 then "-" ++ s else s

/-- JavaScript `String(x)` on a number-or-NaN (NaN is `none`). -/
def numToStr : Option ℚ → String
  | none => "NaN"
  | some q => ratToStr q

/-- ASCII whitespace test used by trim / whitespace-run replacement. -/
def isWs (c : Char) : Bool := c = ' ' || c = '\t' || c = '\n' || c = '\r'

/-- JavaScript `trim` on a character list: drop whitespace at both ends. -/
def trimList (l : List Char) : List Char :=
  ((l.dropWhile isWs).reverse.dropWhile isWs).reverse

/-- Parse an unsigned decimal literal (digits with an optional dot and
fraction digits); `none` models NaN. -/
def parseUnsigned (cs : List Char) : Option ℚ :=
  let ip := cs.takeWhile isDigitCh
  let rest := cs.dropWhile isDigitCh
  if rest = [] then
    if ip = [] then none else some (digitsVal ip)
  else if rest.head? = some '.' then
    let fr := rest.tail
    if fr.all isDigitCh ∧ (ip ≠ [] ∨ fr ≠ []) then
      some ((digitsVal ip : ℚ) + (digitsVal fr : ℚ) / (10 ^ fr.length : ℚ))
    else none
  else none

/-- JavaScript `Number(s)` on a string, for plain decimal literals: trims
whitespace, maps the empty string to 0, handles one leading sign, and
otherwise parses an unsigned decimal literal; `none` models NaN. -/
def jsNumber (s : String) : Option ℚ :=
  let t := trimList s.data
  if t = [] then some 0
  else if t.head? = some '-' then (parseUnsigned t.tail).map Neg.neg
  else if t.head? = some '+' then parseUnsigned t.tail
  else parseUnsigned t

/-- JavaScript `String(v)` on a cell value. -/
def jsToStr : JSValue → String
  | .vNull => "null"
  | .vNum q => ratToStr q
  | .vStr s => s

/-- JavaScript `Number(v)` on a cell value: null coerces to 0. -/
def jsToNum : JSValue → Option ℚ
  | .vNull => some 0
  | .vNum q => some q
  | .vStr s => jsNumber s

/-- JavaScript `toLowerCase` on the ASCII fragment. -/
def lowerStr (s : String) : String := String.mk (s.data.map Char.toLower)

/-- JavaScript `toUpperCase` on the ASCII fragment. -/
def upperStr (s : String) : String := String.mk (s.data.map Char.toUpper)

/-- Does the character list start with the given segment? (JS `startsWith`.) -/
def segAt : List Char → List Char → Bool
  | _, [] => true
  | [], _ :: _ => false
  | a :: as, b :: bs => decide (a = b) && segAt as bs

/-- Does the character list contain the given segment? -/
def hasSeg (needle : List Char) : List Char → Bool
  | [] => segAt [] needle
  | a :: t => segAt (a :: t) needle || hasSeg needle t

/-- JavaScript `hay.includes(needle)` on strings. -/
def strContains (hay needle : String) : Bool := hasSeg needle.data hay.data

/-- Replace every whitespace run by a single copy of `rep`; the flag records
whether the previous character was whitespace.  Embeds the source's
`replace` with a whitespace-run pattern and global flag. -/
def squashWs (rep : Char) : Bool → List Char → List Char
  | _, [] => []
  | prev, c :: rest =>
    if isWs c then
      if prev then squashWs rep true rest else rep :: squashWs rep true rest
    else c :: squashWs rep false rest

/-- Remove the first occurrence of a character (JS `replace` with a plain
one-character string pattern and empty replacement, which replaces only the
first occurrence). -/
def removeFirst (c : Char) : List Char → List Char
  | [] => []
  | a :: as => if a = c then as else a :: removeFirst c as

/-- Replace the first occurrence of a character by another (JS `replace`
with a plain one-character string pattern). -/
def replFirst (c r : Char) : List Char → List Char
  | [] => []
  | a :: as => if a = c then r :: as else a :: replFirst c r as

/-- Split a character list at every occurrence of a separator character. -/
def splitCh (c : Char) : List Char → List (List Char)
  | [] => [[]]
  | a :: as =>
    let r := splitCh c as
    if a = c then [] :: r else (a :: r.headI) :: r.tail

/-- JavaScript `s.split(c)` for a one-character separator. -/
def jsSplitOn (s : String) (c : Char) : List String :=
  (splitCh c s.data).map String.mk

/-- normModel from src/index.js: falsy input gives the empty string;
otherwise trim, collapse internal whitespace runs to one space, and rewrite
a case-insensitive iphone prefix to the brand casing iPhone. -/
def normModel (v : JSValue) : String :=
  if truthy v = false then ""
  else
    let l := squashWs ' ' false (trimList (jsToStr v).data)
    String.mk (if (l.take 6).map Char.toLower = "iphone".data then "iPhone".data ++ l.drop 6 else l)

/-- toIdFromModel from src/index.js: lower-case, replace whitespace runs by
a dash, strip characters outside lower-case letters, digits and dash. -/
def toIdFromModel (m : String) : String :=
  String.mk ((squashWs '-' false (lowerStr m).data).filter
    fun c => (decide ('a' ≤ c) && decide (c ≤ 'z')) || isDigitCh c || c = '-')

/-- safeNumber from src/index.js: a number is returned as-is; a falsy value
gives null; a string is stripped to digits, comma, dot and minus, its first
dot is removed, its first comma becomes a dot, and the result goes through
`Number`, with NaN mapped to null. -/
def safeNumber (v : JSValue) : Option ℚ :=
  match v with
  | .vNum q => some q
  | _ =>
    if truthy v = false then none
    else
      let s := (jsToStr v).data.filter fun c => isDigitCh c || c = '.' || c = ',' || c = '-'
      jsNumber (String.mk (replFirst ',' '.' (removeFirst '.' s)))

/-- inferCategory from src/index.js (display category helper; not used by
the catalog build, which computes the product type inline). -/
def inferCategory (model : JSValue) (fallback : String) : String :=
  let m := lowerStr (jsToStr model)
  if strContains m "ipad" then "iPads"
  else if strContains m "macbook" || strContains m "mac" then "MacBooks"
  else if strContains m "watch" then "Apple Watch"
  else fallback

/-- The product type ternary inside ensureProduct (src/index.js lines
130-132): iphone is checked first, then mac, then ipad, else acessorio. -/
def typeOf (model : String) : String :=
  if strContains (lowerStr model) "iphone" then "iphone"
  else if strContains (lowerStr model) "mac" then "macbook"
  else if strContains (lowerStr model) "ipad" then "ipad"
  else "acessorio"

/-- JavaScript `Math.round`: floor after adding one half. -/
def jsRound (x : ℚ) : ℤ := Rat.floor (x + 1 / 2)

/-- One raw spreadsheet row, with every field name that src/index.js ever
reads from a price, colors or products sheet row; absent fields are null
(the sheets are read with a null default value). -/
structure RawRow where
  model : JSValue := .vNull
  product : JSValue := .vNull
  product_name : JSValue := .vNull
  product_id : JSValue := .vNull
  modelo : JSValue := .vNull
  Model : JSValue := .vNull
  storage_gb : JSValue := .vNull
  gb : JSValue := .vNull
  storage : JSValue := .vNull
  armazenamento : JSValue := .vNull
  market : JSValue := .vNull
  mercado : JSValue := .vNull
  price : JSValue := .vNull
  price_kz : JSValue := .vNull
  kzs : JSValue := .vNull
  preco : JSValue := .vNull
  valor : JSValue := .vNull
  currency : JSValue := .vNull
  moeda : JSValue := .vNull
  disponibilidade : JSValue := .vNull
  Disponibilidade : JSValue := .vNull
  DISPONIBILIDADE : JSValue := .vNull
  color_hex : JSValue := .vNull
  hex : JSValue := .vNull
  color : JSValue := .vNull
  image : JSValue := .vNull
  img : JSValue := .vNull
  deriving DecidableEq, Repr

/-- A normalized price row (the record built by normRow in buildCatalog).
`price` is number-or-null as returned by safeNumber; `storage_gb` is
number-or-NaN as returned by the `Number` coercion. -/
structure NRow where
  id : String
  model : String
  storage_gb : Option ℚ
  market : String
  condition : String
  price : Option ℚ
  currency : String
  disponibilidade : String
  deriving DecidableEq, Repr

/-- The price field of a row, through the alias chain of normRow. -/
def rowPrice (r : RawRow) : Option ℚ :=
  safeNumber (jsOr r.price (jsOr r.price_kz (jsOr r.kzs (jsOr r.preco r.valor))))

/-- normRow from src/index.js: field aliasing with first-truthy-wins,
model normalization, market upper-casing with the requested market as
fallback, price through safeNumber, currency default by market. -/
def normRow (market cond : String) (r : RawRow) : NRow :=
  let model := normModel (jsOr r.model (jsOr r.product (jsOr r.product_name (jsOr r.product_id r.modelo))))
  let id := if truthy r.product_id then jsToStr r.product_id else toIdFromModel model
  let storage := jsToNum (jsOr r.storage_gb (jsOr r.gb (jsOr r.storage r.armazenamento)))
  let mktS := upperStr (jsToStr (jsOr r.market (jsOr r.mercado (.vStr ""))))
  let mkt := if mktS = "" then market else mktS
  let price := rowPrice r
  let currency := upperStr (jsToStr (jsOr r.currency (jsOr r.moeda (.vStr (if mkt = "AO" then "AOA" else "USD")))))
  let disp := String.mk (trimList (jsToStr (jsOr r.disponibilidade (jsOr r.Disponibilidade (jsOr r.DISPONIBILIDADE (.vStr ""))))).data)
  { id := id, model := model, storage_gb := storage, market := mkt,
    condition := cond, price := price, currency := currency, disponibilidade := disp }

/-- The row retention filter of buildCatalog: model truthy and price truthy
(null and 0 are both falsy). -/
def keep (r : NRow) : Bool :=
  decide (r.model ≠ "") && (match r.price with | some p => decide (p ≠ 0) | none => false)

/-- The normalized, filtered rows of one condition sheet (`usedRows` /
`newRows` in buildCatalog). -/
def keptRows (market cond : String) (sheet : List RawRow) : List NRow :=
  (sheet.map (normRow market cond)).filter keep

/-- A base product record as stored in the byModel map by ensureProduct. -/
structure CatProduct where
  id : String
  model : String
  type : String
  rating : ℚ
  reviews : ℤ
  colors : List JSValue
  image : JSValue
  deriving DecidableEq, Repr

/-- The default 4-entry color palette of ensureProduct. -/
def defColors : List JSValue :=
  [.vStr "#0b1020", .vStr "#d4af37", .vStr "#e5e7eb", .vStr "#1d4ed8"]

/-- The synthesized rating of ensureProduct from one random draw r in
[0, 1): the value 4 + r rounded to one decimal. -/
def ratingOf (r : ℚ) : ℚ := (jsRound ((4 + r * 1) * 10) : ℚ) / 10

/-- The synthesized review count of ensureProduct from one random draw r in
[0, 1): the floor of 50 + 200 r, capped at 250. -/
def reviewsOf (r : ℚ) : ℤ := min 250 (Rat.floor (50 + r * 200))

/-- One step of ensureProduct from src/index.js: a write-once map keyed by
canonical model, kept as a list in first-seen order.  The state carries the
list and the index of the next random draw; a new model consumes two draws
(rating, then reviews). -/
def ensureProduct (rnd : ℕ → ℚ) (colorsSheet productsSheet : List RawRow)
    (st : List CatProduct × ℕ) (row : NRow) : List CatProduct × ℕ :=
  if st.1.any (fun p => decide (p.model = row.model)) then st
  else
    let reviews : ℤ := reviewsOf (rnd (st.2 + 1))
    let cs := ((colorsSheet.filter fun c =>
        decide (normModel (jsOr c.model (jsOr c.product_id c.product)) = row.model)).map
        fun c => jsOr c.color_hex (jsOr c.hex c.color)).filter truthy
    let colors := if cs.length ≠ 0 then cs.take 4 else defColors
    let image := match productsSheet.find? (fun p =>
        decide (normModel (jsOr p.model (jsOr p.product_id p.product)) = row.model)) with
      | some ps => if truthy (jsOr ps.image ps.img) then jsOr ps.image ps.img else .vNull
      | none => .vNull
    (st.1 ++ [{ id := row.id, model := row.model, type := typeOf row.model,
                rating := ratingOf (rnd st.2), reviews := reviews,
                colors := colors, image := image }], st.2 + 2)

/-- The byModel registry: fold ensureProduct over the combined kept rows. -/
def byModelOf (rnd : ℕ → ℚ) (colorsSheet productsSheet : List RawRow)
    (rows : List NRow) : List CatProduct :=
  (rows.foldl (ensureProduct rnd colorsSheet productsSheet) ([], 0)).1

/-- One value of the variant index. -/
structure VarEntry where
  price : Option ℚ
  currency : String
  deriving DecidableEq, Repr

/-- The composite variant key built by addVar in src/index.js. -/
def keyOf (r : NRow) : String :=
  r.model ++ "|" ++ r.condition ++ "|" ++ numToStr r.storage_gb ++ "|" ++ r.market

/-- Assignment into a JavaScript object modelled as an association list:
an existing key keeps its position and gets the new value, a new key is
appended (object key enumeration order is insertion order here). -/
def upsert (key : String) (v : VarEntry) : List (String × VarEntry) → List (String × VarEntry)
  | [] => [(key, v)]
  | (k, w) :: t => if k = key then (k, v) :: t else (k, w) :: upsert key v t

/-- addVar from src/index.js. -/
def addVar (vars : List (String × VarEntry)) (r : NRow) : List (String × VarEntry) :=
  upsert (keyOf r) { price := r.price, currency := r.currency } vars

/-- The variant index built from the kept rows (used rows first, then new). -/
def variantsOf (rows : List NRow) : List (String × VarEntry) := rows.foldl addVar []

/-- Component i of a variant key after split on the pipe character
(`undefined` for a missing component, modelled as `none`). -/
def partAt (k : String) (i : ℕ) : Option String := (jsSplitOn k '|').get? i

/-- The model/market test both storage collection and minPriceForModel
apply to a variant key after destructuring its split. -/
def keyMatch (k model market : String) : Bool :=
  decide (partAt k 0 = some model) && decide (partAt k 3 = some market)

/-- JavaScript `Number` applied to a possibly-undefined split component. -/
def numOfPart : Option String → Option ℚ
  | none => none
  | some s => jsNumber s

/-- JavaScript `Set.add` under SameValueZero, keeping insertion order. -/
def setAdd (l : List (Option ℚ)) (x : Option ℚ) : List (Option ℚ) :=
  if x ∈ l then l else l ++ [x]

/-- One step of the per-product storage collection loop of buildCatalog:
split the key, and on a model/market match add the storage component to the
set of the matching condition.  The source runs two sequential condition
tests; they touch disjoint sets, so they are modelled componentwise. -/
def storFold (model market : String) (st : List (Option ℚ) × List (Option ℚ))
    (kv : String × VarEntry) : List (Option ℚ) × List (Option ℚ) :=
  if keyMatch kv.1 model market then
    (if partAt kv.1 1 = some "usado" then setAdd st.1 (numOfPart (partAt kv.1 2)) else st.1,
     if partAt kv.1 1 = some "novo" then setAdd st.2 (numOfPart (partAt kv.1 2)) else st.2)
  else st

/-- The numeric-sort comparator `(a,b) => a - b` as a total test; a NaN
comparison (unspecified in JavaScript) is modelled as a tie. -/
def jsLe (a b : Option ℚ) : Bool :=
  match a, b with
  | some x, some y => decide (x ≤ y)
  | _, _ => true

/-- Insertion of one element into a sorted list under jsLe. -/
def ordIns (x : Option ℚ) : List (Option ℚ) → List (Option ℚ)
  | [] => [x]
  | y :: ys => if jsLe x y then x :: y :: ys else y :: ordIns x ys

/-- `Array.from(set).sort((a,b) => a-b)` modelled as insertion sort. -/
def jsSortNums : List (Option ℚ) → List (Option ℚ)
  | [] => []
  | x :: xs => ordIns x (jsSortNums xs)

/-- The per-condition storage lists of one product. -/
structure Storages where
  usado : List (Option ℚ)
  novo : List (Option ℚ)
  deriving DecidableEq, Repr

/-- One product of the catalog output. -/
structure OutProduct where
  id : String
  model : String
  type : String
  rating : ℚ
  reviews : ℤ
  colors : List JSValue
  image : String
  storages : Storages
  deriving DecidableEq, Repr

/-- The deterministic per-id image fallback path. -/
def defaultImage (id : String) : String := "/public/products/" ++ id ++ ".png"

/-- The output record assembled from one byModel entry: sorted storage
sets, the first four colors, and the default image path when no override
was found.  String-valued image cells are modelled; the source would carry
a numeric cell through unchanged and later crash on it, which no claim
exercises. -/
def assembledOf (q : CatProduct) (variants : List (String × VarEntry))
    (market : String) : OutProduct :=
  { id := q.id, model := q.model, type := q.type, rating := q.rating, reviews := q.reviews,
    colors := q.colors.take 4,
    image := if truthy q.image then jsToStr q.image else defaultImage q.id,
    storages :=
      { usado := jsSortNums (variants.foldl (storFold q.model market) ([], [])).1,
        novo := jsSortNums (variants.foldl (storFold q.model market) ([], [])).2 } }

/-- The product assembly loop of buildCatalog: per byModel entry, collect
storages per condition for the requested market, drop the product when both
sets are empty, sort each set ascending, and fill the image default. -/
def assembleProducts (byModel : List CatProduct) (variants : List (String × VarEntry))
    (market : String) : List OutProduct :=
  byModel.filterMap fun q =>
    if (variants.foldl (storFold q.model market) ([], [])).1.isEmpty &&
        (variants.foldl (storFold q.model market) ([], [])).2.isEmpty then none
    else some (assembledOf q variants market)

/-- The buildCatalog result. -/
structure Catalog where
  products : List OutProduct
  variants : List (String × VarEntry)
  deriving DecidableEq, Repr

/-- buildCatalog from src/index.js (the storages sheet is read but never
used by the source, so it does not appear here). -/
def buildCatalog (used novo colorsSheet productsSheet : List RawRow)
    (rnd : ℕ → ℚ) (market : String) : Catalog :=
  let usedRows := keptRows market "usado" used
  let newRows := keptRows market "novo" novo
  let byModel := byModelOf rnd colorsSheet productsSheet (usedRows ++ newRows)
  let variants := variantsOf (usedRows ++ newRows)
  { products := assembleProducts byModel variants market, variants := variants }

/-- One step of the minPriceForModel fold: on a key match with a numeric
price, take it when it is strictly below the current minimum (or when there
is none yet), carrying that entry's currency. -/
def minStep (model market : String) (st : Option ℚ × String) (kv : String × VarEntry) :
    Option ℚ × String :=
  if keyMatch kv.1 model market then
    match kv.2.price with
    | some p =>
      match st.1 with
      | none => (some p, kv.2.currency)
      | some m => if p < m then (some p, kv.2.currency) else st
    | none => st
  else st

/-- minPriceForModel from the featured handler: fold over the variant index
keeping the least matching price under strict less-than (so the first entry
attaining the minimum supplies the currency), with AOA as initial currency. -/
def minPriceForModel (variants : List (String × VarEntry)) (market model : String) :
    Option ℚ × String :=
  variants.foldl (minStep model market) (none, "AOA")

/-- Insertion into a JavaScript Set of strings, keeping insertion order. -/
def strInsert (l : List String) (x : String) : List String :=
  if x ∈ l then l else l ++ [x]

/-- The canonical model the availability re-scan reads from a raw row: the
model/Model fields only (not the other aliases normRow accepts). -/
def availModelOf (r : RawRow) : String :=
  normModel (jsOr r.model (jsOr r.Model (.vStr "")))

/-- The lower-cased availability field the re-scan reads from a raw row:
the disponibilidade/Disponibilidade fields only. -/
def availDispOf (r : RawRow) : String :=
  lowerStr (jsToStr (jsOr r.disponibilidade (jsOr r.Disponibilidade (.vStr ""))))

/-- The availability re-scan of the featured handler: over the raw rows of
both condition sheets, take the canonical model from the model/Model fields
only, lower-case the disponibilidade/Disponibilidade field, and collect the
model when it is truthy and the field contains the (already lower-cased)
city as a substring. -/
def modelsAvailable (used novo : List RawRow) (city : String) : List String :=
  (used ++ novo).foldl (fun acc r =>
    if decide (availModelOf r ≠ "") && strContains (availDispOf r) city
    then strInsert acc (availModelOf r) else acc) []

/-- One item of the featured response. -/
structure FeatItem where
  id : String
  model : String
  image : String
  min_price : Option ℚ
  currency : String
  deriving DecidableEq, Repr

/-- The featured projection of one product: minimum price with its
currency, and an absolutized image URL. -/
def featItemOf (variants : List (String × VarEntry)) (market baseUrl : String)
    (p : OutProduct) : FeatItem :=
  { id := p.id, model := p.model,
    image := if segAt p.image.data "/".data then baseUrl ++ p.image else p.image,
    min_price := (minPriceForModel variants market p.model).1,
    currency := (minPriceForModel variants market p.model).2 }

/-- The featured item list before ordering: availability-filtered products,
projected with their minimum price and an absolutized image URL, keeping
only items with a numeric minimum. -/
def itemsOf (cat : Catalog) (avail : List String) (market baseUrl : String) : List FeatItem :=
  ((cat.products.filter fun p => decide (p.model ∈ avail)).map
    (featItemOf cat.variants market baseUrl)).filter fun it => decide (it.min_price ≠ none)

/-- `mapByModel.get m`: the last item with the given model (Map construction
keeps the last binding per key). -/
def lookupByModel (items : List FeatItem) (m : String) : Option FeatItem :=
  (items.filter fun it => decide (it.model = m)).getLast?

/-- The ordering pass of the featured handler: push the preferred models
that are present (in preference order), then the remaining items in their
original order, skipping items already pushed.  The membership test models
JavaScript reference equality, which coincides with structural equality
here because pipeline items are pairwise distinct. -/
def orderedOf (items : List FeatItem) (preferred : List String) : List FeatItem :=
  let pref := preferred.foldl (fun acc m =>
    match lookupByModel items m with
    | some it => acc ++ [it]
    | none => acc) []
  items.foldl (fun acc it => if it ∈ acc then acc else acc ++ [it]) pref

/-- The count clamp of the featured handler:
`Math.max(1, Math.min(20, Number(req.query.count) || 8))`, where an absent
query is NaN and NaN and 0 both fall back to 8. -/
def clampCount (countQ : Option String) : ℚ :=
  let n : Option ℚ := match countQ with | none => none | some s => jsNumber s
  let base : ℚ := match n with | some q => if q ≠ 0 then q else 8 | none => 8
  max 1 (min 20 base)

/-- `slice(0, count)` length for a clamped count: truncate toward zero. -/
def sliceLen (c : ℚ) : ℕ := (Rat.floor c).toNat

/-- The featured response body. -/
structure Featured where
  market : String
  count : ℚ
  items : List FeatItem
  deriving Repr

/-- The featured handler pipeline of src/index.js: build the catalog,
re-scan availability, project and filter items, order by the preferred
list, clamp the count and truncate.  `market` and `city` are the handler's
query values after its upper-casing of market and lower-casing of city,
`baseUrl` the scheme-and-host
prefix, `preferred` the list read from the featured config, and `countQ`
the raw count query string. -/
def selectFeatured (used novo colorsSheet productsSheet : List RawRow) (rnd : ℕ → ℚ)
    (market city baseUrl : String) (preferred : List String) (countQ : Option String) :
    Featured :=
  let cat := buildCatalog used novo colorsSheet productsSheet rnd market
  let avail := modelsAvailable used novo city
  let items := itemsOf cat avail market baseUrl
  let ordered := orderedOf items preferred
  let count := clampCount countQ
  { market := market, count := count, items := ordered.take (sliceLen count) }

/-- A string free of the pipe character used as the variant-key
delimiter. -/
def noPipe (s : String) : Prop := '|' ∉ s.data

instance (s : String) : Decidable (noPipe s) := by unfold noPipe; infer_instance

/-- The embedding of an integer storage size into number-or-NaN. -/
def intEmb (z : ℤ) : Option ℚ := some ((z : ℚ))

/-! Definitions written from the specification claims, for comparison with
the source functions embedded above. -/

/-- Modelled from the claim wording of C1 as stated: numeric input as-is;
string input stripped to digits, commas, periods and minus signs, then ALL
periods removed and the first remaining comma converted to a decimal point,
the result parsed as a number; empty or absent input gives null. -/
def parseLocalizedNumberClaim (v : JSValue) : Option ℚ :=
  match v with
  | .vNum q => some q
  | _ =>
    if truthy v = false then none
    else
      let s := (jsToStr v).data.filter fun c => isDigitCh c || c = '.' || c = ',' || c = '-'
      jsNumber (String.mk (replFirst ',' '.' (s.filter fun c => decide (c ≠ '.'))))

/-- Modelled from the amended claim wording of C1: as the claim, except
that only the FIRST period is removed before the comma conversion. -/
def parseLocalizedNumberAmended (v : JSValue) : Option ℚ :=
  match v with
  | .vNum q => some q
  | _ =>
    if truthy v = false then none
    else
      let s := (jsToStr v).data.filter fun c => isDigitCh c || c = '.' || c = ',' || c = '-'
      jsNumber (String.mk (replFirst ',' '.' (removeFirst '.' s)))

/-- Modelled from the claim wording of C7 as stated: clamp the requested
count to the closed range [1, 20]. -/
def clampCountClaim (n : ℚ) : ℚ := max 1 (min 20 n)

/-- The two rows of the C3 end-to-end scenario. -/
def rowUsedC3 : RawRow :=
  { model := .vStr "iPhone 13", storage_gb := .vNum 128,
    market := .vStr "AO", price := .vStr "450.000,00" }

/-- The new-sheet row of the C3 end-to-end scenario. -/
def rowNewC3 : RawRow :=
  { model := .vStr "iPhone 13", storage_gb := .vNum 256,
    market := .vStr "AO", price := .vStr "600.000,00" }

/-- The model-iPad-Mac row of the C2 counterexample. -/
def rowC2 : RawRow :=
  { model := .vStr "iPad Mac", storage_gb := .vNum 128, market := .vStr "AO", price := .vNum 100 }

/-- The catalog product of the C2 witness run. -/
def p0C2 : OutProduct :=
  { id := "ipad-mac", model := "iPad Mac", type := "macbook", rating := 4, reviews := 50,
    colors := defColors, image := "/public/products/ipad-mac.png",
    storages := { usado := [some 128], novo := [] } }

/-- The pipe-free hypothesis on all kept rows of a catalog run. -/
def PipeFreeRows (used novo : List RawRow) (market : String) : Prop :=
  ∀ r ∈ keptRows market "usado" used ++ keptRows market "novo" novo,
    noPipe r.model ∧ noPipe r.market

instance (used novo : List RawRow) (market : String) :
    Decidable (PipeFreeRows used novo market) := by
  unfold PipeFreeRows; infer_instance

/-- The row of the C5 counterexample: its model contains the key
delimiter. -/
def rowC5 : RawRow :=
  { model := .vStr "a|b", storage_gb := .vNum 128, market := .vStr "AO", price := .vNum 100 }

/-- The row of the C6 counterexample: its storage cell is the non-integer
number 1.5. -/
def rowC6 : RawRow :=
  { model := .vStr "X", storage_gb := .vNum (3 / 2), market := .vStr "AO", price := .vNum 100 }

/-- The catalog product of the C6 witness run. -/
def p0C6 : OutProduct :=
  { id := "iphone-13", model := "iPhone 13", type := "iphone", rating := 4, reviews := 50,
    colors := defColors, image := "/public/products/iphone-13.png",
    storages := { usado := [some 128], novo := [] } }

/-- The adversarial rows of the C4 counterexample: a plain model a, and a
model containing pipe characters whose key splits into components that
mimic a match for model a in market AO. -/
def rowC4a : RawRow :=
  { model := .vStr "a", storage_gb := .vNum 1, market := .vStr "AO",
    price := .vNum 100, disponibilidade := .vStr "Luanda" }

/-- The pipe-model row of the C4 counterexample. -/
def rowC4b : RawRow :=
  { model := .vStr "a|x|9|AO", storage_gb := .vNum 1, market := .vStr "AO",
    price := .vNum 50 }

/-- The rows of the C7 counterexample: two models available in Luanda. -/
def rowC7a : RawRow :=
  { model := .vStr "A1", storage_gb := .vNum 64, market := .vStr "AO",
    price := .vNum 10, disponibilidade := .vStr "Luanda" }

/-- The second row of the C7 counterexample. -/
def rowC7b : RawRow :=
  { model := .vStr "B2", storage_gb := .vNum 64, market := .vStr "AO",
    price := .vNum 20, disponibilidade := .vStr "Luanda" }

/-- The availability row of the C8 aliased counterexample: the model is
supplied under the modelo alias, which the catalog accepts but the
availability re-scan does not. -/
def rowC8alias : RawRow :=
  { modelo := .vStr "iPhone 13", storage_gb := .vNum 128, market := .vStr "AO",
    price := .vNum 100, disponibilidade := .vStr "Luanda" }

/-- The Luanda/Benguela row of the C8 example. -/
def rowC8L : RawRow :=
  { model := .vStr "iPhone 13", disponibilidade := .vStr "Luanda, Benguela" }

/-- The Huambo row of the C8 example. -/
def rowC8H : RawRow :=
  { model := .vStr "iPhone 13", disponibilidade := .vStr "Huambo" }

/-- Rebuilding a string from its own characters is the identity. -/
theorem mk_data (s : String) : String.mk s.data = s := rfl

/-- splitCh never returns the empty list. -/
theorem splitCh_ne_nil (c : Char) (l : List Char) : splitCh c l ≠ [] := by
  cases l with
  | nil => simp [splitCh]
  | cons a as =>
    simp only [splitCh]
    split <;> simp

/-- Splitting a list free of the separator gives that list back. -/
theorem splitCh_no_sep (c : Char) (l : List Char) (h : c ∉ l) : splitCh c l = [l] := by
  induction l with
  | nil => rfl
  | cons a as ih =>
    have ha : a ≠ c := fun e => h (e ▸ List.mem_cons_self a as)
    have has : c ∉ as := fun e => h (List.mem_cons_of_mem a e)
    simp only [splitCh, if_neg ha, ih has]
    rfl

/-- Splitting at the first separator occurrence peels the prefix. -/
theorem splitCh_append (c : Char) (xs ys : List Char) (h : c ∉ xs) :
    splitCh c (xs ++ c :: ys) = xs :: splitCh c ys := by
  induction xs with
  | nil => simp [splitCh]
  | cons a as ih =>
    have ha : a ≠ c := fun e => h (e ▸ List.mem_cons_self a as)
    have has : c ∉ as := fun e => h (List.mem_cons_of_mem a e)
    simp only [List.cons_append, splitCh, List.append_eq, if_neg ha, ih has]
    rfl

/-- The split of a well-formed four-component variant key recovers exactly
its components when none of them contains the delimiter. -/
theorem jsSplitOn_key (m c g mk : String) (hm : noPipe m) (hc : noPipe c)
    (hg : noPipe g) (hmk : noPipe mk) :
    jsSplitOn (m ++ "|" ++ c ++ "|" ++ g ++ "|" ++ mk) '|' = [m, c, g, mk] := by
  unfold jsSplitOn
  have hdata : (m ++ "|" ++ c ++ "|" ++ g ++ "|" ++ mk).data
      = m.data ++ '|' :: (c.data ++ '|' :: (g.data ++ '|' :: mk.data)) := by
    simp [String.data_append]
  rw [hdata, splitCh_append _ _ _ hm, splitCh_append _ _ _ hc, splitCh_append _ _ _ hg,
    splitCh_no_sep _ _ hmk]
  simp [mk_data]

/-- The character of a decimal digit is a digit character. -/
theorem isDigitCh_ofNat (d : ℕ) (hd : d < 10) : isDigitCh (Char.ofNat (48 + d)) = true := by
  interval_cases d <;> decide

/-- The numeric value of the character of a decimal digit. -/
theorem digVal_ofNat (d : ℕ) (hd : d < 10) : digVal (Char.ofNat (48 + d)) = d := by
  interval_cases d <;> decide

/-- Every character produced by natCharsF is a digit character. -/
theorem natCharsF_digits : ∀ f n : ℕ, ∀ c ∈ natCharsF f n, isDigitCh c = true := by
  intro f
  induction f with
  | zero => intro n c hc; cases n <;> cases hc
  | succ f ih =>
    intro n c hc
    cases n with
    | zero => cases hc
    | succ n =>
      simp only [natCharsF, List.mem_append, List.mem_singleton] at hc
      rcases hc with hc | rfl
      · exact ih _ c hc
      · exact isDigitCh_ofNat _ (Nat.mod_lt _ (by norm_num))

/-- Appending one digit multiplies the value by ten and adds the digit. -/
theorem digitsVal_append_singleton (l : List Char) (c : Char) :
    digitsVal (l ++ [c]) = 10 * digitsVal l + digVal c := by
  simp [digitsVal, List.foldl_append]

/-- The digits produced with enough fuel evaluate back to the number. -/
theorem digitsVal_natCharsF : ∀ f n : ℕ, n ≤ f → digitsVal (natCharsF f n) = n := by
  intro f
  induction f with
  | zero => intro n hn; interval_cases n; rfl
  | succ f ih =>
    intro n hn
    cases n with
    | zero => rfl
    | succ n =>
      have hdiv : (n + 1) / 10 ≤ f := by omega
      simp only [natCharsF, digitsVal_append_singleton, ih _ hdiv,
        digVal_ofNat _ (Nat.mod_lt _ (by norm_num))]
      omega

/-- natCharsF of a positive number with positive fuel is nonempty. -/
theorem natCharsF_ne_nil (f n : ℕ) (hn : n ≠ 0) (hf : f ≠ 0) : natCharsF f n ≠ [] := by
  cases f with
  | zero => exact absurd rfl hf
  | succ f =>
    cases n with
    | zero => exact absurd rfl hn
    | succ n => simp [natCharsF]

/-- A list of digit characters is untouched by takeWhile on digits. -/
theorem takeWhile_digits (l : List Char) (h : ∀ c ∈ l, isDigitCh c = true) :
    l.takeWhile isDigitCh = l := by
  induction l with
  | nil => rfl
  | cons a as ih =>
    simp only [List.takeWhile_cons, h a (List.mem_cons_self a as), ih
      fun c hc => h c (List.mem_cons_of_mem a hc)]
    simp

/-- A list of digit characters is emptied by dropWhile on digits. -/
theorem dropWhile_digits (l : List Char) (h : ∀ c ∈ l, isDigitCh c = true) :
    l.dropWhile isDigitCh = [] := by
  induction l with
  | nil => rfl
  | cons a as ih =>
    simp only [List.dropWhile_cons, h a (List.mem_cons_self a as), ih
      fun c hc => h c (List.mem_cons_of_mem a hc)]
    simp

/-- Digit characters are not whitespace. -/
theorem digit_not_ws (c : Char) (h : isDigitCh c = true) : isWs c = false := by
  revert h
  unfold isDigitCh isWs
  intro h
  simp only [Bool.and_eq_true, decide_eq_true_eq] at h
  rcases h with ⟨h1, h2⟩
  by_contra hw
  simp only [Bool.not_eq_false, Bool.or_eq_true, decide_eq_true_eq] at hw
  rcases hw with ((rfl | rfl) | rfl) | rfl <;> revert h1 h2 <;> decide

/-- A list with no whitespace is untouched by dropWhile on whitespace. -/
theorem dropWhile_no_ws (l : List Char) (h : ∀ c ∈ l, isWs c = false) :
    l.dropWhile isWs = l := by
  cases l with
  | nil => rfl
  | cons a as => simp [List.dropWhile_cons, h a (List.mem_cons_self a as)]

/-- Trimming a whitespace-free list is the identity. -/
theorem trimList_no_ws (l : List Char) (h : ∀ c ∈ l, isWs c = false) :
    trimList l = l := by
  unfold trimList
  rw [dropWhile_no_ws l h, dropWhile_no_ws l.reverse
    fun c hc => h c (List.mem_reverse.mp hc), List.reverse_reverse]

/-- Parsing an all-digit nonempty list yields its value. -/
theorem parseUnsigned_digits (l : List Char) (hne : l ≠ [])
    (h : ∀ c ∈ l, isDigitCh c = true) : parseUnsigned l = some ((digitsVal l : ℚ)) := by
  unfold parseUnsigned
  rw [takeWhile_digits l h, dropWhile_digits l h]
  simp [hne]

/-- jsNumber of an all-digit nonempty string is its value. -/
theorem jsNumber_digits (l : List Char) (hne : l ≠ [])
    (h : ∀ c ∈ l, isDigitCh c = true) : jsNumber (String.mk l) = some ((digitsVal l : ℚ)) := by
  unfold jsNumber
  have hmk : (String.mk l).data = l := rfl
  rw [hmk, trimList_no_ws l fun c hc => digit_not_ws c (h c hc)]
  rcases List.exists_cons_of_ne_nil hne with ⟨a, as, rfl⟩
  have ha := h a (List.mem_cons_self a as)
  have hna : ¬ ((a :: as).head? = some '-') := by
    simp only [List.head?_cons, Option.some.injEq]
    rintro rfl; revert ha; decide
  have hpa : ¬ ((a :: as).head? = some '+') := by
    simp only [List.head?_cons, Option.some.injEq]
    rintro rfl; revert ha; decide
  rw [if_neg (List.cons_ne_nil a as), if_neg hna, if_neg hpa]
  exact parseUnsigned_digits _ hne h

/-- jsNumber undoes natToStr. -/
theorem jsNumber_natToStr (n : ℕ) : jsNumber (natToStr n) = some ((n : ℚ)) := by
  by_cases hn : n = 0
  · subst hn; decide
  · unfold natToStr
    rw [if_neg hn]
    rw [jsNumber_digits (natChars n) (natCharsF_ne_nil n n hn hn) (natCharsF_digits n n)]
    rw [show digitsVal (natChars n) = n from digitsVal_natCharsF n n (le_refl n)]

/-- natToStr produces only digit characters. -/
theorem natToStr_digits (n : ℕ) : ∀ c ∈ (natToStr n).data, isDigitCh c = true := by
  unfold natToStr
  by_cases hn : n = 0
  · subst hn; intro c hc; simp at hc; subst hc; decide
  · rw [if_neg hn]; exact natCharsF_digits n n

/-- parseUnsigned of the rendering of a positive natural is its value. -/
theorem parseUnsigned_natToStr (n : ℕ) (hn : n ≠ 0) :
    parseUnsigned (natToStr n).data = some ((n : ℚ)) := by
  have hdigs : ∀ c ∈ (natToStr n).data, isDigitCh c = true := natToStr_digits n
  have hne2 : (natToStr n).data ≠ [] := by
    unfold natToStr
    rw [if_neg hn]
    exact natCharsF_ne_nil _ _ hn hn
  rw [parseUnsigned_digits _ hne2 hdigs]
  unfold natToStr
  rw [if_neg hn]
  rw [show digitsVal (String.mk (natChars n)).data = n from digitsVal_natCharsF n n (le_refl n)]

/-- jsNumber undoes intToStr. -/
theorem jsNumber_intToStr (z : ℤ) : jsNumber (intToStr z) = some ((z : ℚ)) := by
  unfold intToStr
  by_cases hz : z < 0
  · rw [if_pos hz]
    have hne : z.natAbs ≠ 0 := by omega
    have hdigs : ∀ c ∈ (natToStr z.natAbs).data, isDigitCh c = true := natToStr_digits _
    unfold jsNumber
    have hdata : ("-" ++ natToStr z.natAbs).data = '-' :: (natToStr z.natAbs).data := by
      simp [String.data_append]
    have hnws : ∀ c ∈ ('-' :: (natToStr z.natAbs).data), isWs c = false := by
      intro c hc
      rcases List.mem_cons.mp hc with rfl | hc
      · decide
      · exact digit_not_ws c (hdigs c hc)
    rw [hdata, trimList_no_ws _ hnws]
    rw [if_neg (List.cons_ne_nil _ _), if_pos (by simp), List.tail_cons]
    rw [parseUnsigned_natToStr _ hne]
    show some (-(z.natAbs : ℚ)) = some ((z : ℚ))
    congr 1
    rw [Int.cast_natAbs, abs_of_neg hz]
    push_cast
    ring
  · rw [if_neg hz]
    rw [jsNumber_natToStr]
    congr 1
    rw [Int.cast_natAbs, abs_of_nonneg (not_lt.mp hz)]

/-- jsNumber undoes the rendering of an integer-valued rational. -/
theorem jsNumber_ratToStr_int (z : ℤ) : jsNumber (ratToStr ((z : ℚ))) = some ((z : ℚ)) := by
  unfold ratToStr
  rw [if_pos (Rat.den_intCast z), Rat.num_intCast]
  exact jsNumber_intToStr z

/-- No string rendered from a number-or-NaN contains the key delimiter. -/
theorem noPipe_numToStr (x : Option ℚ) : noPipe (numToStr x) := by
  have hdig : ∀ c : Char, isDigitCh c = true → c ≠ '|' := by
    intro c h
    rintro rfl
    revert h
    decide
  cases x with
  | none => decide
  | some q =>
    show ('|' : Char) ∉ (ratToStr q).data
    unfold ratToStr
    by_cases h1 : q.den = 1
    · rw [if_pos h1]
      unfold intToStr
      by_cases h2 : q.num < 0
      · rw [if_pos h2]
        simp only [String.data_append]
        intro hc
        rcases List.mem_append.mp hc with hc | hc
        · revert hc; decide
        · exact hdig _ (natToStr_digits _ _ hc) rfl
      · rw [if_neg h2]
        intro hc
        exact hdig _ (natToStr_digits _ _ hc) rfl
    · rw [if_neg h1]
      cases hde : decExp q.den with
      | none =>
        simp only [String.data_append]
        intro hc
        rcases List.mem_append.mp hc with hc | hc
        · rcases List.mem_append.mp hc with hc | hc
          · unfold intToStr at hc
            by_cases h2 : q.num < 0
            · rw [if_pos h2] at hc
              simp only [String.data_append] at hc
              rcases List.mem_append.mp hc with hc | hc
              · revert hc; decide
              · exact hdig _ (natToStr_digits _ _ hc) rfl
            · rw [if_neg h2] at hc
              exact hdig _ (natToStr_digits _ _ hc) rfl
          · revert hc; decide
        · exact hdig _ (natToStr_digits _ _ hc) rfl
      | some k =>
        have hdigits : ∀ c ∈ List.replicate (k + 1 -
            (natChars (q.num.natAbs * 10 ^ k / q.den)).length) '0' ++
            natChars (q.num.natAbs * 10 ^ k / q.den), isDigitCh c = true := by
          intro c hc
          rcases List.mem_append.mp hc with hc | hc
          · rw [List.eq_of_mem_replicate hc]; decide
          · exact natCharsF_digits _ _ c hc
        simp only
        split
        · simp only [String.data_append]
          intro hc
          rcases List.mem_append.mp hc with hc | hc
          · revert hc; decide
          · rcases List.mem_append.mp hc with hc | hc
            · rcases List.mem_append.mp hc with hc | hc
              · exact hdig _ (hdigits _ (List.mem_of_mem_take hc)) rfl
              · revert hc; decide
            · exact hdig _ (hdigits _ (List.mem_of_mem_drop hc)) rfl
        · simp only [String.data_append]
          intro hc
          rcases List.mem_append.mp hc with hc | hc
          · rcases List.mem_append.mp hc with hc | hc
            · exact hdig _ (hdigits _ (List.mem_of_mem_take hc)) rfl
            · revert hc; decide
          · exact hdig _ (hdigits _ (List.mem_of_mem_drop hc)) rfl

/-- The split of the key of a pipe-free row recovers its components. -/
theorem keyOf_parts (r : NRow) (hm : noPipe r.model) (hc : noPipe r.condition)
    (hk : noPipe r.market) :
    jsSplitOn (keyOf r) '|' = [r.model, r.condition, numToStr r.storage_gb, r.market] :=
  jsSplitOn_key _ _ _ _ hm hc (noPipe_numToStr _) hk

/-- The model/market test on the key of a pipe-free row is exactly the test
on the row's own model and market. -/
theorem keyMatch_keyOf (r : NRow) (hm : noPipe r.model) (hc : noPipe r.condition)
    (hk : noPipe r.market) (M mkt : String) :
    keyMatch (keyOf r) M mkt = true ↔ (r.model = M ∧ r.market = mkt) := by
  unfold keyMatch partAt
  rw [keyOf_parts r hm hc hk]
  simp

/-- The condition component of the key of a pipe-free row. -/
theorem partAt_keyOf_one (r : NRow) (hm : noPipe r.model) (hc : noPipe r.condition)
    (hk : noPipe r.market) : partAt (keyOf r) 1 = some r.condition := by
  unfold partAt
  rw [keyOf_parts r hm hc hk]
  rfl

/-- The storage component of the key of a pipe-free row. -/
theorem partAt_keyOf_two (r : NRow) (hm : noPipe r.model) (hc : noPipe r.condition)
    (hk : noPipe r.market) : partAt (keyOf r) 2 = some (numToStr r.storage_gb) := by
  unfold partAt
  rw [keyOf_parts r hm hc hk]
  rfl

/-- Members of an upsert are the new binding or old members. -/
theorem mem_upsert (l : List (String × VarEntry)) (key : String) (v : VarEntry)
    (kv : String × VarEntry) (h : kv ∈ upsert key v l) : kv = (key, v) ∨ kv ∈ l := by
  induction l with
  | nil =>
    simp only [upsert, List.mem_singleton] at h
    exact Or.inl h
  | cons hd t ih =>
    rcases hd with ⟨k, w⟩
    by_cases hk : k = key
    · simp only [upsert, if_pos hk] at h
      rcases List.mem_cons.mp h with rfl | h
      · exact Or.inl (by rw [hk])
      · exact Or.inr (List.mem_cons_of_mem _ h)
    · simp only [upsert, if_neg hk] at h
      rcases List.mem_cons.mp h with rfl | h
      · exact Or.inr (List.mem_cons_self _ _)
      · rcases ih h with h1 | h2
        · exact Or.inl h1
        · exact Or.inr (List.mem_cons_of_mem _ h2)

/-- The key set of an upsert is the old key set plus the new key. -/
theorem mem_keys_upsert (l : List (String × VarEntry)) (key : String) (v : VarEntry)
    (k : String) : k ∈ (upsert key v l).map Prod.fst ↔ k = key ∨ k ∈ l.map Prod.fst := by
  induction l with
  | nil => simp [upsert]
  | cons hd t ih =>
    rcases hd with ⟨k0, w⟩
    unfold upsert
    by_cases hk : k0 = key
    · rw [if_pos hk]
      subst hk
      simp only [List.map_cons, List.mem_cons]
      tauto
    · rw [if_neg hk]
      simp only [List.map_cons, List.mem_cons, ih]
      tauto

/-- Members of the variant index fold come from the accumulator or from
one of the folded rows. -/
theorem mem_variants_fold (rows : List NRow) :
    ∀ acc : List (String × VarEntry), ∀ kv ∈ rows.foldl addVar acc,
      kv ∈ acc ∨ ∃ r ∈ rows, kv = (keyOf r, { price := r.price, currency := r.currency }) := by
  induction rows with
  | nil => intro acc kv h; exact Or.inl h
  | cons r t ih =>
    intro acc kv h
    rcases ih (addVar acc r) kv h with h1 | ⟨r2, hr2, rfl⟩
    · rcases mem_upsert acc (keyOf r) _ kv h1 with rfl | h2
      · exact Or.inr ⟨r, List.mem_cons_self r t, rfl⟩
      · exact Or.inl h2
    · exact Or.inr ⟨r2, List.mem_cons_of_mem r hr2, rfl⟩

/-- The key set of the variant index fold. -/
theorem mem_keys_variants_fold (rows : List NRow) :
    ∀ acc : List (String × VarEntry), ∀ k : String,
      (k ∈ (rows.foldl addVar acc).map Prod.fst ↔
        k ∈ acc.map Prod.fst ∨ ∃ r ∈ rows, keyOf r = k) := by
  induction rows with
  | nil => intro acc k; simp
  | cons r t ih =>
    intro acc k
    rw [List.foldl_cons, ih (addVar acc r) k]
    unfold addVar
    rw [mem_keys_upsert]
    simp only [List.mem_cons]
    constructor
    · rintro ((rfl | h) | ⟨r2, hr2, rfl⟩)
      · exact Or.inr ⟨r, Or.inl rfl, rfl⟩
      · exact Or.inl h
      · exact Or.inr ⟨r2, Or.inr hr2, rfl⟩
    · rintro (h | ⟨r2, (rfl | hr2), rfl⟩)
      · exact Or.inl (Or.inr h)
      · exact Or.inl (Or.inl rfl)
      · exact Or.inr ⟨r2, hr2, rfl⟩

/-- Members of the variant index come from the kept rows. -/
theorem mem_variantsOf (rows : List NRow) (kv : String × VarEntry) (h : kv ∈ variantsOf rows) :
    ∃ r ∈ rows, kv = (keyOf r, { price := r.price, currency := r.currency }) := by
  rcases mem_variants_fold rows [] kv h with h1 | h2
  · cases h1
  · exact h2

/-- The variant index holds exactly the keys of the kept rows. -/
theorem mem_keys_variantsOf (rows : List NRow) (k : String) :
    k ∈ (variantsOf rows).map Prod.fst ↔ ∃ r ∈ rows, keyOf r = k := by
  rw [variantsOf, mem_keys_variants_fold rows [] k]
  simp

/-- Membership in a JavaScript Set after one add. -/
theorem mem_setAdd (l : List (Option ℚ)) (x y : Option ℚ) :
    y ∈ setAdd l x ↔ y ∈ l ∨ y = x := by
  unfold setAdd
  by_cases h : x ∈ l
  · rw [if_pos h]
    constructor
    · exact Or.inl
    · rintro (hy | rfl)
      · exact hy
      · exact h
  · rw [if_neg h]
    simp

/-- Adding to a duplicate-free Set keeps it duplicate-free. -/
theorem nodup_setAdd (l : List (Option ℚ)) (x : Option ℚ) (h : l.Nodup) :
    (setAdd l x).Nodup := by
  unfold setAdd
  by_cases hx : x ∈ l
  · rw [if_pos hx]; exact h
  · rw [if_neg hx]
    simp [List.nodup_append, h, hx]

/-- Membership in the storage sets collected by the storFold loop. -/
theorem storFold_mem (M mkt : String) (vs : List (String × VarEntry)) :
    ∀ su sn : List (Option ℚ), ∀ x : Option ℚ,
      (x ∈ (vs.foldl (storFold M mkt) (su, sn)).1 ↔
        x ∈ su ∨ ∃ kv ∈ vs, keyMatch kv.1 M mkt = true ∧
          partAt kv.1 1 = some "usado" ∧ numOfPart (partAt kv.1 2) = x) ∧
      (x ∈ (vs.foldl (storFold M mkt) (su, sn)).2 ↔
        x ∈ sn ∨ ∃ kv ∈ vs, keyMatch kv.1 M mkt = true ∧
          partAt kv.1 1 = some "novo" ∧ numOfPart (partAt kv.1 2) = x) := by
  induction vs with
  | nil => intro su sn x; simp
  | cons kv t ih =>
    intro su sn x
    rw [List.foldl_cons]
    have hstep : storFold M mkt (su, sn) kv =
        (if keyMatch kv.1 M mkt then
          (if partAt kv.1 1 = some "usado" then setAdd su (numOfPart (partAt kv.1 2)) else su,
           if partAt kv.1 1 = some "novo" then setAdd sn (numOfPart (partAt kv.1 2)) else sn)
        else (su, sn)) := rfl
    rw [hstep]
    by_cases hm : keyMatch kv.1 M mkt = true
    · rw [if_pos hm]
      rcases ih (if partAt kv.1 1 = some "usado" then setAdd su (numOfPart (partAt kv.1 2)) else su)
        (if partAt kv.1 1 = some "novo" then setAdd sn (numOfPart (partAt kv.1 2)) else sn) x
        with ⟨ih1, ih2⟩
      constructor
      · rw [ih1]
        by_cases hu : partAt kv.1 1 = some "usado"
        · rw [if_pos hu, mem_setAdd]
          simp only [List.mem_cons]
          constructor
          · rintro ((hx | rfl) | ⟨kv2, hkv2, h2⟩)
            · exact Or.inl hx
            · exact Or.inr ⟨kv, Or.inl rfl, hm, hu, rfl⟩
            · exact Or.inr ⟨kv2, Or.inr hkv2, h2⟩
          · rintro (hx | ⟨kv2, (rfl | hkv2), h2⟩)
            · exact Or.inl (Or.inl hx)
            · exact Or.inl (Or.inr h2.2.2.symm)
            · exact Or.inr ⟨kv2, hkv2, h2⟩
        · rw [if_neg hu]
          simp only [List.mem_cons]
          constructor
          · rintro (hx | ⟨kv2, hkv2, h2⟩)
            · exact Or.inl hx
            · exact Or.inr ⟨kv2, Or.inr hkv2, h2⟩
          · rintro (hx | ⟨kv2, (rfl | hkv2), h2⟩)
            · exact Or.inl hx
            · exact absurd h2.2.1 hu
            · exact Or.inr ⟨kv2, hkv2, h2⟩
      · rw [ih2]
        by_cases hn : partAt kv.1 1 = some "novo"
        · rw [if_pos hn, mem_setAdd]
          simp only [List.mem_cons]
          constructor
          · rintro ((hx | rfl) | ⟨kv2, hkv2, h2⟩)
            · exact Or.inl hx
            · exact Or.inr ⟨kv, Or.inl rfl, hm, hn, rfl⟩
            · exact Or.inr ⟨kv2, Or.inr hkv2, h2⟩
          · rintro (hx | ⟨kv2, (rfl | hkv2), h2⟩)
            · exact Or.inl (Or.inl hx)
            · exact Or.inl (Or.inr h2.2.2.symm)
            · exact Or.inr ⟨kv2, hkv2, h2⟩
        · rw [if_neg hn]
          simp only [List.mem_cons]
          constructor
          · rintro (hx | ⟨kv2, hkv2, h2⟩)
            · exact Or.inl hx
            · exact Or.inr ⟨kv2, Or.inr hkv2, h2⟩
          · rintro (hx | ⟨kv2, (rfl | hkv2), h2⟩)
            · exact Or.inl hx
            · exact absurd h2.2.1 hn
            · exact Or.inr ⟨kv2, hkv2, h2⟩
    · rw [if_neg hm]
      rcases ih su sn x with ⟨ih1, ih2⟩
      constructor
      · rw [ih1]
        simp only [List.mem_cons]
        constructor
        · rintro (hx | ⟨kv2, hkv2, h2⟩)
          · exact Or.inl hx
          · exact Or.inr ⟨kv2, Or.inr hkv2, h2⟩
        · rintro (hx | ⟨kv2, (rfl | hkv2), h2⟩)
          · exact Or.inl hx
          · exact absurd h2.1 hm
          · exact Or.inr ⟨kv2, hkv2, h2⟩
      · rw [ih2]
        simp only [List.mem_cons]
        constructor
        · rintro (hx | ⟨kv2, hkv2, h2⟩)
          · exact Or.inl hx
          · exact Or.inr ⟨kv2, Or.inr hkv2, h2⟩
        · rintro (hx | ⟨kv2, (rfl | hkv2), h2⟩)
          · exact Or.inl hx
          · exact absurd h2.1 hm
          · exact Or.inr ⟨kv2, hkv2, h2⟩

/-- The storage sets collected by the storFold loop stay duplicate-free. -/
theorem storFold_nodup (M mkt : String) (vs : List (String × VarEntry)) :
    ∀ su sn : List (Option ℚ), su.Nodup → sn.Nodup →
      (vs.foldl (storFold M mkt) (su, sn)).1.Nodup ∧
      (vs.foldl (storFold M mkt) (su, sn)).2.Nodup := by
  induction vs with
  | nil => intro su sn h1 h2; exact ⟨h1, h2⟩
  | cons kv t ih =>
    intro su sn h1 h2
    rw [List.foldl_cons]
    unfold storFold
    by_cases hm : keyMatch kv.1 M mkt = true
    · rw [if_pos hm]
      by_cases hu : partAt kv.1 1 = some "usado"
      · have hn : ¬ partAt kv.1 1 = some "novo" := by
          rw [hu]; intro hcon
          exact absurd (Option.some.inj hcon) (by decide)
        rw [if_pos hu, if_neg hn]
        exact ih _ _ (nodup_setAdd _ _ h1) h2
      · rw [if_neg hu]
        by_cases hn : partAt kv.1 1 = some "novo"
        · rw [if_pos hn]
          exact ih _ _ h1 (nodup_setAdd _ _ h2)
        · rw [if_neg hn]
          exact ih _ _ h1 h2
    · rw [if_neg hm]
      exact ih _ _ h1 h2

/-- Inserting under jsLe permutes to a cons. -/
theorem ordIns_perm (x : Option ℚ) (l : List (Option ℚ)) : List.Perm (ordIns x l) (x :: l) := by
  induction l with
  | nil => rfl
  | cons y ys ih =>
    unfold ordIns
    by_cases h : jsLe x y = true
    · rw [if_pos h]
    · rw [if_neg h]
      exact (List.Perm.cons y ih).trans (List.Perm.swap x y ys)

/-- The modelled numeric sort is a permutation. -/
theorem jsSortNums_perm (l : List (Option ℚ)) : List.Perm (jsSortNums l) l := by
  induction l with
  | nil => rfl
  | cons x xs ih =>
    exact (ordIns_perm x (jsSortNums xs)).trans (List.Perm.cons x ih)

/-- The integer embedding is injective. -/
theorem intEmb_inj (a b : ℤ) (h : intEmb a = intEmb b) : a = b := by
  unfold intEmb at h
  exact_mod_cast Option.some.inj h

/-- Insertion commutes with the embedding of integers into number-or-NaN. -/
theorem ordIns_map_int (x : ℤ) (l : List ℤ) :
    ordIns (intEmb x) (l.map intEmb) =
      (List.orderedInsert (fun a b : ℤ => a ≤ b) x l).map intEmb := by
  induction l with
  | nil => rfl
  | cons y ys ih =>
    simp only [List.map_cons, ordIns, List.orderedInsert]
    have hle : jsLe (intEmb x) (intEmb y) = decide (x ≤ y) := by
      unfold jsLe intEmb
      simp [Int.cast_le]
    by_cases h : x ≤ y
    · rw [hle, if_pos (by simpa using h), if_pos h]
      simp
    · rw [hle, if_neg (by simpa using h), if_neg h]
      simp only [List.map_cons, ih]

/-- The modelled numeric sort of embedded integers is insertion sort on the
integers. -/
theorem jsSortNums_map_int (l : List ℤ) :
    jsSortNums (l.map intEmb) =
      (List.insertionSort (fun a b : ℤ => a ≤ b) l).map intEmb := by
  induction l with
  | nil => rfl
  | cons x xs ih =>
    simp only [List.map_cons, jsSortNums, List.insertionSort, ih]
    exact ordIns_map_int x _

/-- A list whose members are all embedded integers is an embedded list. -/
theorem exists_int_list (l : List (Option ℚ))
    (h : ∀ x ∈ l, ∃ z : ℤ, x = intEmb z) :
    ∃ zs : List ℤ, l = zs.map intEmb := by
  induction l with
  | nil => exact ⟨[], rfl⟩
  | cons x xs ih =>
    rcases ih (fun y hy => h y (List.mem_cons_of_mem x hy)) with ⟨zs, he⟩
    rcases h x (List.mem_cons_self x xs) with ⟨z, rfl⟩
    exact ⟨z :: zs, by rw [List.map_cons, he]⟩

/-- A duplicate-free sorted integer list is a strictly ascending chain. -/
theorem chain_lt_of_sorted_nodup (l : List ℤ)
    (hs : List.Sorted (fun a b : ℤ => a ≤ b) l) (hn : l.Nodup) :
    List.Chain' (fun a b : ℤ => a < b) l :=
  List.chain'_iff_pairwise.mpr (List.Sorted.lt_of_le hs hn)

/-- Characterization of membership in the assembled product list. -/
theorem mem_assembleProducts_iff (bm : List CatProduct) (vs : List (String × VarEntry))
    (market : String) (p : OutProduct) :
    p ∈ assembleProducts bm vs market ↔ ∃ q ∈ bm,
      ((vs.foldl (storFold q.model market) ([], [])).1.isEmpty &&
        (vs.foldl (storFold q.model market) ([], [])).2.isEmpty) = false ∧
      p = assembledOf q vs market := by
  rw [assembleProducts, List.mem_filterMap]
  constructor
  · rintro ⟨q, hq, hfq⟩
    by_cases hemp : ((vs.foldl (storFold q.model market) ([], [])).1.isEmpty &&
        (vs.foldl (storFold q.model market) ([], [])).2.isEmpty) = true
    · rw [if_pos hemp] at hfq
      cases hfq
    · rw [if_neg hemp] at hfq
      exact ⟨q, hq, Bool.not_eq_true _ ▸ hemp, (Option.some.inj hfq).symm⟩
  · rintro ⟨q, hq, hne, rfl⟩
    refine ⟨q, hq, ?_⟩
    rw [if_neg (by rw [hne]; exact Bool.false_ne_true)]

/-- Rows of a kept-row list carry the requested condition and originate in
the sheet. -/
theorem mem_keptRows (market cond : String) (sheet : List RawRow) (r : NRow)
    (h : r ∈ keptRows market cond sheet) :
    r.condition = cond ∧ keep r = true ∧ ∃ raw ∈ sheet, r = normRow market cond raw := by
  unfold keptRows at h
  rcases List.mem_filter.mp h with ⟨h1, hkeep⟩
  rcases List.mem_map.mp h1 with ⟨raw, hraw, rfl⟩
  exact ⟨rfl, hkeep, raw, hraw, rfl⟩

/-- The condition of a row of either combined kept-row list is free of the
key delimiter. -/
theorem noPipe_condition (market : String) (used novo : List RawRow) (r : NRow)
    (h : r ∈ keptRows market "usado" used ++ keptRows market "novo" novo) :
    noPipe r.condition := by
  rcases List.mem_append.mp h with h | h
  · rw [(mem_keptRows _ _ _ _ h).1]; decide
  · rw [(mem_keptRows _ _ _ _ h).1]; decide

/-- The ensureProduct step never removes registry entries. -/
theorem ensureProduct_superset (rnd : ℕ → ℚ) (cs ps : List RawRow)
    (st : List CatProduct × ℕ) (r : NRow) (q : CatProduct) (hq : q ∈ st.1) :
    q ∈ (ensureProduct rnd cs ps st r).1 := by
  unfold ensureProduct
  by_cases h : st.1.any (fun p => decide (p.model = r.model))
  · rw [if_pos h]; exact hq
  · rw [if_neg h]
    exact List.mem_append_left _ hq

/-- The byModel fold never removes registry entries. -/
theorem fold_ensure_superset (rnd : ℕ → ℚ) (cs ps : List RawRow) (rows : List NRow) :
    ∀ st : List CatProduct × ℕ, ∀ q ∈ st.1,
      q ∈ (rows.foldl (ensureProduct rnd cs ps) st).1 := by
  induction rows with
  | nil => intro st q hq; exact hq
  | cons r t ih =>
    intro st q hq
    exact ih (ensureProduct rnd cs ps st r) q (ensureProduct_superset rnd cs ps st r q hq)

/-- After folding, every folded row's model is registered. -/
theorem byModelOf_model_exists (rnd : ℕ → ℚ) (cs ps : List RawRow) (rows : List NRow) :
    ∀ st : List CatProduct × ℕ, ∀ r ∈ rows,
      ∃ q ∈ (rows.foldl (ensureProduct rnd cs ps) st).1, q.model = r.model := by
  induction rows with
  | nil => intro st r hr; cases hr
  | cons r0 t ih =>
    intro st r hr
    rcases List.mem_cons.mp hr with rfl | hr
    · by_cases h : st.1.any (fun p => decide (p.model = r.model))
      · rcases List.any_eq_true.mp h with ⟨q, hq, hqm⟩
        refine ⟨q, ?_, of_decide_eq_true hqm⟩
        rw [List.foldl_cons]
        exact fold_ensure_superset rnd cs ps t _ q (ensureProduct_superset rnd cs ps st r q hq)
      · rw [List.foldl_cons]
        have hmem : ∃ q ∈ (ensureProduct rnd cs ps st r).1, q.model = r.model := by
          unfold ensureProduct
          rw [if_neg h]
          exact ⟨_, List.mem_append_right _ (List.mem_singleton.mpr rfl), rfl⟩
        rcases hmem with ⟨q, hq, hqm⟩
        exact ⟨q, fold_ensure_superset rnd cs ps t _ q hq, hqm⟩
    · rw [List.foldl_cons]
      exact ih (ensureProduct rnd cs ps st r0) r hr

/-- A key of an association list has an entry. -/
theorem exists_entry_of_mem_keys (l : List (String × VarEntry)) (k : String)
    (h : k ∈ l.map Prod.fst) : ∃ e, (k, e) ∈ l := by
  rcases List.mem_map.mp h with ⟨kv, hkv, rfl⟩
  exact ⟨kv.2, hkv⟩

/-- A false conjunction of emptiness checks means one set is nonempty. -/
theorem nonempty_of_and_isEmpty_false (s1 s2 : List (Option ℚ))
    (h : (s1.isEmpty && s2.isEmpty) = false) : s1 ≠ [] ∨ s2 ≠ [] := by
  rcases Bool.and_eq_false_iff.mp h with h1 | h2
  · left; intro he; rw [he] at h1; cases h1
  · right; intro he; rw [he] at h2; cases h2

/-- C1, counterexample: the claim says every period is stripped, but the
source's replace uses a plain string pattern, which removes only the first
period; on the string 1.299.500,00 the code yields null while the claim
as stated yields 1299500. -/
theorem C1_counterexample :
    safeNumber (.vStr "1.299.500,00") = none ∧
      parseLocalizedNumberClaim (.vStr "1.299.500,00") = some 1299500 := by
  constructor <;> decide

/-- C1 (amended): safeNumber returns numeric input as-is; a string input is
stripped to digits, commas, periods and minus signs, its FIRST period is
removed and its first remaining comma becomes a decimal point, and the
result is parsed as a number; empty or absent input and a failed parse
yield null.  In particular 1.299,50 parses to 1299.5, the empty string to
null, and the number 42 to itself. -/
theorem C1_parseLocalizedNumber :
    (∀ v, safeNumber v = parseLocalizedNumberAmended v) ∧
      safeNumber (.vStr "1.299,50") = some (1299.5 : ℚ) ∧
      safeNumber (.vStr "") = none ∧
      safeNumber (.vNum 42) = some 42 := by
  refine ⟨fun v => ?_, by decide, by decide, by decide⟩
  cases v <;> rfl

/-- C3: with exactly the used row (iPhone 13, 128 GB, AO, 450.000,00) and
the new row (iPhone 13, 256 GB, AO, 600.000,00), buildCatalog for market AO
yields exactly one product, iPhone 13, with used storages [128] and new
storages [256], and a variant index of exactly two entries with prices
450000 and 600000, whatever the random draws are. -/
theorem C3_end_to_end (rnd : ℕ → ℚ) :
    ((buildCatalog [rowUsedC3] [rowNewC3] [] [] rnd "AO").products.map fun p => p.model)
        = ["iPhone 13"] ∧
      ((buildCatalog [rowUsedC3] [rowNewC3] [] [] rnd "AO").products.map fun p => p.storages)
        = [{ usado := [some 128], novo := [some 256] }] ∧
      ((buildCatalog [rowUsedC3] [rowNewC3] [] [] rnd "AO").variants.map fun kv => kv.2.price)
        = [some 450000, some 600000] := by
  exact ⟨rfl, rfl, rfl⟩

/-- C9, counterexample: the claim says the rounded rating always lies in
[4.0, 5.0), but the draw 0.95 is a valid draw in [0, 1) whose rating rounds
up to exactly 5.0. -/
theorem C9_counterexample :
    (0 ≤ (19 : ℚ) / 20 ∧ (19 : ℚ) / 20 < 1) ∧
      ratingOf ((19 : ℚ) / 20) = 5 ∧ ¬ ratingOf ((19 : ℚ) / 20) < 5 := by
  refine ⟨by constructor <;> decide, by decide, by decide⟩

/-- C9 (amended): for every random draw in [0, 1), the synthesized rating —
4 plus the draw, rounded to one decimal — lies in the CLOSED range
[4.0, 5.0] (a draw of at least 0.95 rounds up to 5.0), and the synthesized
review count is an integer in the range [50, 250). -/
theorem C9_rating_reviews_range (r : ℚ) (h0 : 0 ≤ r) (h1 : r < 1) :
    (4 ≤ ratingOf r ∧ ratingOf r ≤ 5) ∧ 50 ≤ reviewsOf r ∧ reviewsOf r < 250 := by
  have hratf : jsRound ((4 + r * 1) * 10) = ⌊(4 + r * 1) * 10 + 1 / 2⌋ := rfl
  have hrevf : reviewsOf r = min 250 ⌊(50 : ℚ) + r * 200⌋ := rfl
  have h40 : (40 : ℤ) ≤ ⌊(4 + r * 1) * 10 + 1 / 2⌋ := by
    rw [Int.le_floor]; push_cast; linarith
  have h50 : ⌊(4 + r * 1) * 10 + 1 / 2⌋ < 51 := by
    rw [Int.floor_lt]; push_cast; linarith
  have hr50 : (50 : ℤ) ≤ ⌊(50 : ℚ) + r * 200⌋ := by
    rw [Int.le_floor]; push_cast; linarith
  have hr250 : ⌊(50 : ℚ) + r * 200⌋ < 250 := by
    rw [Int.floor_lt]; push_cast; linarith
  have hmin : min (250 : ℤ) ⌊(50 : ℚ) + r * 200⌋ = ⌊(50 : ℚ) + r * 200⌋ :=
    min_eq_right (le_of_lt hr250)
  have h40q : (40 : ℚ) ≤ (⌊(4 + r * 1) * 10 + 1 / 2⌋ : ℚ) := by exact_mod_cast h40
  have h50q : ((⌊(4 + r * 1) * 10 + 1 / 2⌋ : ℤ) : ℚ) ≤ 50 := by
    exact_mod_cast (by omega : ⌊(4 + r * 1) * 10 + 1 / 2⌋ ≤ 50)
  constructor
  · unfold ratingOf
    rw [hratf]
    constructor
    · linarith
    · linarith
  · rw [hrevf, hmin]
    exact ⟨hr50, hr250⟩

/-- C9 witness: the amended range theorem applied at the draw 0. -/
theorem C9_witness :
    (4 ≤ ratingOf 0 ∧ ratingOf 0 ≤ 5) ∧ 50 ≤ reviewsOf 0 ∧ reviewsOf 0 < 250 :=
  C9_rating_reviews_range 0 (le_refl 0) (by norm_num)

/-- One ensureProduct step only ever adds a product whose type is the
typeOf of its model. -/
theorem ensureProduct_type (rnd : ℕ → ℚ) (cs ps : List RawRow) (st : List CatProduct × ℕ)
    (r : NRow) (q : CatProduct) (hq : q ∈ (ensureProduct rnd cs ps st r).1) :
    q ∈ st.1 ∨ q.type = typeOf q.model := by
  unfold ensureProduct at hq
  by_cases h : st.1.any (fun p => decide (p.model = r.model))
  · rw [if_pos h] at hq
    exact Or.inl hq
  · rw [if_neg h] at hq
    simp only [List.mem_append, List.mem_singleton] at hq
    rcases hq with hq | rfl
    · exact Or.inl hq
    · exact Or.inr rfl

/-- Auxiliary fold version of the type invariant of the byModel registry. -/
theorem byModelOf_type_aux (rnd : ℕ → ℚ) (cs ps : List RawRow) (rows : List NRow) :
    ∀ st : List CatProduct × ℕ, (∀ x ∈ st.1, x.type = typeOf x.model) →
      ∀ x ∈ (rows.foldl (ensureProduct rnd cs ps) st).1, x.type = typeOf x.model := by
  induction rows with
  | nil => intro st hst x hx; exact hst x hx
  | cons r t ih =>
    intro st hst x hx
    refine ih (ensureProduct rnd cs ps st r) ?_ x hx
    intro y hy
    rcases ensureProduct_type rnd cs ps st r y hy with hy1 | hy2
    · exact hst y hy1
    · exact hy2

/-- Every product of the byModel registry has the type inferred from its
model by the inline ternary. -/
theorem byModelOf_type (rnd : ℕ → ℚ) (cs ps : List RawRow) (rows : List NRow)
    (q : CatProduct) (hq : q ∈ byModelOf rnd cs ps rows) : q.type = typeOf q.model :=
  byModelOf_type_aux rnd cs ps rows ([], 0) (by intro x hx; cases hx) q hq

/-- Every catalog product descends from a byModel entry with the same id,
model, type, rating and reviews. -/
theorem mem_products_descends (bm : List CatProduct) (vs : List (String × VarEntry))
    (market : String) (p : OutProduct) (hp : p ∈ assembleProducts bm vs market) :
    ∃ q ∈ bm, p.id = q.id ∧ p.model = q.model ∧ p.type = q.type ∧
      p.rating = q.rating ∧ p.reviews = q.reviews := by
  rcases List.mem_filterMap.mp hp with ⟨q, hq, hfq⟩
  refine ⟨q, hq, ?_⟩
  by_cases hemp : ((vs.foldl (storFold q.model market) ([], [])).1.isEmpty &&
      (vs.foldl (storFold q.model market) ([], [])).2.isEmpty) = true
  · rw [if_pos hemp] at hfq
    cases hfq
  · rw [if_neg hemp] at hfq
    cases hfq
    exact ⟨rfl, rfl, rfl, rfl, rfl⟩

/-- C2, counterexample: the claim says ipad is checked before mac, so a
model containing both should get type ipad; but the inline ternary that
assigns the product type checks iphone, then mac, then ipad, so the model
iPad Mac gets type macbook. -/
theorem C2_counterexample :
    ((buildCatalog [rowC2] [] [] [] (fun _ => 0) "AO").products.map fun p => (p.model, p.type))
        = [("iPad Mac", "macbook")] ∧
      strContains (lowerStr "iPad Mac") "ipad" = true ∧
      strContains (lowerStr "iPad Mac") "mac" = true ∧
      strContains (lowerStr "iPad Mac") "iphone" = false ∧
      ("macbook" : String) ≠ "ipad" := by
  refine ⟨rfl, by decide, by decide, by decide, by decide⟩

/-- C2 (amended): the product type is inferred by case-insensitive
substring checks in the source's order iphone, then mac, then ipad, with
acessorio as fallback (the watch branch exists only in the unused
inferCategory helper); consequently every catalog product whose lower-cased
model contains both ipad and mac but not iphone has type macbook, not
ipad. -/
theorem C2_type_inference (used novo cs ps : List RawRow) (rnd : ℕ → ℚ) (market : String)
    (p : OutProduct) (hp : p ∈ (buildCatalog used novo cs ps rnd market).products)
    (hipad : strContains (lowerStr p.model) "ipad" = true)
    (hmac : strContains (lowerStr p.model) "mac" = true)
    (hiph : strContains (lowerStr p.model) "iphone" = false) :
    p.type = "macbook" := by
  have hp2 : p ∈ assembleProducts
      (byModelOf rnd cs ps (keptRows market "usado" used ++ keptRows market "novo" novo))
      (variantsOf (keptRows market "usado" used ++ keptRows market "novo" novo)) market := hp
  rcases mem_products_descends _ _ _ p hp2 with ⟨q, hq, _, hmodel, htype, _, _⟩
  have hqt := byModelOf_type rnd cs ps _ q hq
  rw [htype, hqt, ← hmodel]
  unfold typeOf
  rw [hiph, hmac]
  simp

/-- C2 witness: the amended type-inference theorem applied to the concrete
iPad Mac product. -/
theorem C2_type_inference_witness : p0C2.type = "macbook" :=
  C2_type_inference [rowC2] [] [] [] (fun _ => 0) "AO" p0C2
    (by decide) (by decide) (by decide) (by decide)

/-- C10: a row whose price field parses to exactly 0 is dropped by the
retention filter, because retention tests the price for truthiness and 0 is
falsy; inserting such a row anywhere into either condition sheet leaves the
whole buildCatalog output (variant index and storage sets included)
unchanged. -/
theorem C10_zero_price_dropped (used1 used2 novo1 novo2 colorsSheet productsSheet : List RawRow)
    (rnd : ℕ → ℚ) (market : String) (r : RawRow) (h : rowPrice r = some 0) :
    buildCatalog (used1 ++ [r] ++ used2) (novo1 ++ novo2) colorsSheet productsSheet rnd market =
        buildCatalog (used1 ++ used2) (novo1 ++ novo2) colorsSheet productsSheet rnd market ∧
      buildCatalog (used1 ++ used2) (novo1 ++ [r] ++ novo2) colorsSheet productsSheet rnd market =
        buildCatalog (used1 ++ used2) (novo1 ++ novo2) colorsSheet productsSheet rnd market := by
  have hk : ∀ c, keep (normRow market c r) = false := by
    intro c
    simp only [keep, normRow, h]
    simp
  constructor <;>
    simp [buildCatalog, keptRows, List.map_append, List.filter_append, hk]

/-- C10 witness: a concrete zero-price row (price cell 0,00) is inert. -/
theorem C10_zero_price_witness :
    buildCatalog ([] ++ [{ model := .vStr "Zero", price := .vStr "0,00" }] ++ [])
        ([] ++ []) [] [] (fun _ => 0) "AO" =
      buildCatalog ([] ++ []) ([] ++ []) [] [] (fun _ => 0) "AO" :=
  (C10_zero_price_dropped [] [] [] [] [] [] (fun _ => 0) "AO"
    { model := .vStr "Zero", price := .vStr "0,00" } (by decide)).1

/-- C5, counterexample: the claim says a product appears exactly when it
has a retained variant in the requested market; but a model containing the
pipe character used as the key delimiter has a retained variant in market
AO (the variant index holds its key) while the split-based storage scan
mis-parses the key, so the product is dropped from the output. -/
theorem C5_counterexample :
    ((keptRows "AO" "usado" [rowC5] ++ keptRows "AO" "novo" []).map fun r =>
        (r.model, r.market)) = [("a|b", "AO")] ∧
      ((buildCatalog [rowC5] [] [] [] (fun _ => 0) "AO").variants.map Prod.fst)
        = ["a|b|usado|128|AO"] ∧
      (buildCatalog [rowC5] [] [] [] (fun _ => 0) "AO").products = [] := by
  refine ⟨rfl, rfl, rfl⟩

/-- C5 (amended): provided no kept row's model or market contains the pipe
character used as the key delimiter, a product appears in buildCatalog's
output exactly when some kept row (either condition) has its model and the
requested market. -/
theorem C5_product_iff_variant (used novo cs ps : List RawRow) (rnd : ℕ → ℚ)
    (market M : String) (hp : PipeFreeRows used novo market) :
    (∃ p ∈ (buildCatalog used novo cs ps rnd market).products, p.model = M) ↔
      ∃ r ∈ keptRows market "usado" used ++ keptRows market "novo" novo,
        r.model = M ∧ r.market = market := by
  set rows := keptRows market "usado" used ++ keptRows market "novo" novo with hrows
  have hprod : (buildCatalog used novo cs ps rnd market).products =
      assembleProducts (byModelOf rnd cs ps rows) (variantsOf rows) market := rfl
  constructor
  · rintro ⟨p, hp2, rfl⟩
    rw [hprod, mem_assembleProducts_iff] at hp2
    rcases hp2 with ⟨q, hq, hne, rfl⟩
    have hsets := nonempty_of_and_isEmpty_false _ _ hne
    have hget : ∀ cond : String, cond = "usado" ∨ cond = "novo" →
        (∃ x, x ∈ (if cond = "usado"
          then ((variantsOf rows).foldl (storFold q.model market) ([], [])).1
          else ((variantsOf rows).foldl (storFold q.model market) ([], [])).2)) →
        ∃ r ∈ rows, r.model = (assembledOf q (variantsOf rows) market).model ∧
          r.market = market := by
      intro cond hcond ⟨x, hx⟩
      have hx2 : ∃ kv ∈ variantsOf rows, keyMatch kv.1 q.model market = true ∧
          partAt kv.1 1 = some cond ∧ numOfPart (partAt kv.1 2) = x := by
        rcases hcond with rfl | rfl
        · rw [if_pos rfl] at hx
          rcases ((storFold_mem q.model market (variantsOf rows) [] [] x).1).mp hx with
            h0 | h2
          · cases h0
          · exact h2
        · rw [if_neg (by decide)] at hx
          rcases ((storFold_mem q.model market (variantsOf rows) [] [] x).2).mp hx with
            h0 | h2
          · cases h0
          · exact h2
      rcases hx2 with ⟨kv, hkv, hmatch, _, _⟩
      rcases mem_variantsOf rows kv hkv with ⟨r, hr, rfl⟩
      rcases hp r hr with ⟨hm, hk⟩
      rcases (keyMatch_keyOf r hm (noPipe_condition market used novo r hr) hk
        q.model market).mp hmatch with ⟨hrm, hrmkt⟩
      exact ⟨r, hr, hrm, hrmkt⟩
    rcases hsets with h1 | h2
    · rcases List.exists_mem_of_ne_nil _ h1 with ⟨x, hx⟩
      exact hget "usado" (Or.inl rfl) ⟨x, by simpa using hx⟩
    · rcases List.exists_mem_of_ne_nil _ h2 with ⟨x, hx⟩
      exact hget "novo" (Or.inr rfl) ⟨x, by simpa using hx⟩
  · rintro ⟨r, hr, hM, hmkt⟩
    rcases byModelOf_model_exists rnd cs ps rows ([], 0) r hr with ⟨q, hq, hqm⟩
    have hkey : keyOf r ∈ (variantsOf rows).map Prod.fst :=
      (mem_keys_variantsOf rows (keyOf r)).mpr ⟨r, hr, rfl⟩
    rcases exists_entry_of_mem_keys _ _ hkey with ⟨e, hke⟩
    rcases hp r hr with ⟨hm, hk⟩
    have hcondp := noPipe_condition market used novo r hr
    have hmatch : keyMatch (keyOf r) q.model market = true :=
      (keyMatch_keyOf r hm hcondp hk q.model market).mpr ⟨hqm.symm, hmkt⟩
    have hcond : r.condition = "usado" ∨ r.condition = "novo" := by
      rcases List.mem_append.mp hr with h | h
      · exact Or.inl (mem_keptRows _ _ _ _ h).1
      · exact Or.inr (mem_keptRows _ _ _ _ h).1
    have hne : (((variantsOf rows).foldl (storFold q.model market) ([], [])).1.isEmpty &&
        ((variantsOf rows).foldl (storFold q.model market) ([], [])).2.isEmpty) = false := by
      rcases hcond with hc | hc
      · have hx : numOfPart (partAt (keyOf r) 2) ∈
            ((variantsOf rows).foldl (storFold q.model market) ([], [])).1 :=
          ((storFold_mem q.model market (variantsOf rows) [] [] _).1).mpr
            (Or.inr ⟨(keyOf r, e), hke, hmatch, by rw [partAt_keyOf_one r hm hcondp hk, hc],
              rfl⟩)
        cases hh : ((variantsOf rows).foldl (storFold q.model market) ([], [])).1 with
        | nil => rw [hh] at hx; cases hx
        | cons a t => rfl
      · have hx : numOfPart (partAt (keyOf r) 2) ∈
            ((variantsOf rows).foldl (storFold q.model market) ([], [])).2 :=
          ((storFold_mem q.model market (variantsOf rows) [] [] _).2).mpr
            (Or.inr ⟨(keyOf r, e), hke, hmatch, by rw [partAt_keyOf_one r hm hcondp hk, hc],
              rfl⟩)
        cases hh : ((variantsOf rows).foldl (storFold q.model market) ([], [])).2 with
        | nil => rw [hh] at hx; cases hx
        | cons a t => simp
    refine ⟨assembledOf q (variantsOf rows) market, ?_, ?_⟩
    · rw [hprod, mem_assembleProducts_iff]
      exact ⟨q, hq, hne, rfl⟩
    · show q.model = M
      rw [hqm, hM]

/-- C5 witness: the amended iff applied to the concrete one-row catalog. -/
theorem C5_witness :
    ∃ p ∈ (buildCatalog [rowUsedC3] [] [] [] (fun _ => 0) "AO").products,
      p.model = "iPhone 13" :=
  (C5_product_iff_variant [rowUsedC3] [] [] [] (fun _ => 0) "AO" "iPhone 13"
      (by decide)).mpr
    ⟨normRow "AO" "usado" rowUsedC3, by decide, by decide, by decide⟩

/-- numOfPart on a present component is jsNumber. -/
theorem numOfPart_some (s : String) : numOfPart (some s) = jsNumber s := rfl

/-- The rendering of an integer-valued storage parses back to itself. -/
theorem roundtrip_storage (o : Option ℚ) (h : ∃ z : ℤ, o = intEmb z) :
    jsNumber (numToStr o) = o := by
  rcases h with ⟨z, rfl⟩
  show jsNumber (ratToStr ((z : ℚ))) = some ((z : ℚ))
  exact jsNumber_ratToStr_int z

/-- Membership in the two storage sets collected for a model and market,
characterized by the kept rows, for pipe-free rows. -/
theorem storSet_mem_char (rows : List NRow) (M market : String)
    (hpipe : ∀ r ∈ rows, noPipe r.model ∧ noPipe r.condition ∧ noPipe r.market)
    (x : Option ℚ) :
    (x ∈ ((variantsOf rows).foldl (storFold M market) ([], [])).1 ↔
      ∃ r ∈ rows, r.condition = "usado" ∧ r.model = M ∧ r.market = market ∧
        jsNumber (numToStr r.storage_gb) = x) ∧
    (x ∈ ((variantsOf rows).foldl (storFold M market) ([], [])).2 ↔
      ∃ r ∈ rows, r.condition = "novo" ∧ r.model = M ∧ r.market = market ∧
        jsNumber (numToStr r.storage_gb) = x) := by
  constructor
  · rw [(storFold_mem M market (variantsOf rows) [] [] x).1]
    constructor
    · rintro (h0 | ⟨kv, hkv, hmatch, hcond, hnum⟩)
      · cases h0
      · rcases mem_variantsOf rows kv hkv with ⟨r, hr, rfl⟩
        rcases hpipe r hr with ⟨h1, h2, h3⟩
        rcases (keyMatch_keyOf r h1 h2 h3 M market).mp hmatch with ⟨hrm, hrmkt⟩
        rw [partAt_keyOf_one r h1 h2 h3] at hcond
        rw [partAt_keyOf_two r h1 h2 h3, numOfPart_some] at hnum
        exact ⟨r, hr, Option.some.inj hcond, hrm, hrmkt, hnum⟩
    · rintro ⟨r, hr, hcond, hrm, hrmkt, hnum⟩
      rcases hpipe r hr with ⟨h1, h2, h3⟩
      rcases exists_entry_of_mem_keys _ _
        ((mem_keys_variantsOf rows (keyOf r)).mpr ⟨r, hr, rfl⟩) with ⟨e, hke⟩
      refine Or.inr ⟨(keyOf r, e), hke, (keyMatch_keyOf r h1 h2 h3 M market).mpr ⟨hrm, hrmkt⟩,
        ?_, ?_⟩
      · rw [partAt_keyOf_one r h1 h2 h3, hcond]
      · rw [partAt_keyOf_two r h1 h2 h3, numOfPart_some, hnum]
  · rw [(storFold_mem M market (variantsOf rows) [] [] x).2]
    constructor
    · rintro (h0 | ⟨kv, hkv, hmatch, hcond, hnum⟩)
      · cases h0
      · rcases mem_variantsOf rows kv hkv with ⟨r, hr, rfl⟩
        rcases hpipe r hr with ⟨h1, h2, h3⟩
        rcases (keyMatch_keyOf r h1 h2 h3 M market).mp hmatch with ⟨hrm, hrmkt⟩
        rw [partAt_keyOf_one r h1 h2 h3] at hcond
        rw [partAt_keyOf_two r h1 h2 h3, numOfPart_some] at hnum
        exact ⟨r, hr, Option.some.inj hcond, hrm, hrmkt, hnum⟩
    · rintro ⟨r, hr, hcond, hrm, hrmkt, hnum⟩
      rcases hpipe r hr with ⟨h1, h2, h3⟩
      rcases exists_entry_of_mem_keys _ _
        ((mem_keys_variantsOf rows (keyOf r)).mpr ⟨r, hr, rfl⟩) with ⟨e, hke⟩
      refine Or.inr ⟨(keyOf r, e), hke, (keyMatch_keyOf r h1 h2 h3 M market).mpr ⟨hrm, hrmkt⟩,
        ?_, ?_⟩
      · rw [partAt_keyOf_one r h1 h2 h3, hcond]
      · rw [partAt_keyOf_two r h1 h2 h3, numOfPart_some, hnum]

/-- A duplicate-free list of embedded integers sorts to a strictly
ascending embedded integer list with the same members. -/
theorem sorted_int_list (l : List (Option ℚ)) (hl : l.Nodup)
    (hint : ∀ x ∈ l, ∃ z : ℤ, x = intEmb z) :
    ∃ zs : List ℤ, jsSortNums l = zs.map intEmb ∧
      List.Chain' (fun a b : ℤ => a < b) zs ∧ ∀ z : ℤ, z ∈ zs ↔ intEmb z ∈ l := by
  rcases exists_int_list l hint with ⟨zs0, rfl⟩
  have hnd0 : zs0.Nodup := List.Nodup.of_map intEmb hl
  refine ⟨List.insertionSort (fun a b : ℤ => a ≤ b) zs0, jsSortNums_map_int zs0, ?_, ?_⟩
  · exact chain_lt_of_sorted_nodup _ (List.sorted_insertionSort _ zs0)
      ((List.perm_insertionSort _ zs0).nodup_iff.mpr hnd0)
  · intro z
    rw [(List.perm_insertionSort _ zs0).mem_iff]
    constructor
    · exact fun hz => List.mem_map_of_mem intEmb hz
    · intro hz
      rcases List.mem_map.mp hz with ⟨w, hw, hwz⟩
      rw [← intEmb_inj w z hwz]
      exact hw

/-- C6, counterexample: the claim says every product's storages are
strictly ascending INTEGER sequences, but a retained row with storage cell
1.5 puts the non-integer value 1.5 into the product's used-storage list. -/
theorem C6_counterexample :
    ((buildCatalog [rowC6] [] [] [] (fun _ => 0) "AO").products.map fun p => p.storages.usado)
        = [[some ((3 : ℚ) / 2)]] ∧
      ((3 : ℚ) / 2).den ≠ 1 ∧ ∀ z : ℤ, some ((3 : ℚ) / 2) ≠ intEmb z := by
  refine ⟨rfl, by decide, ?_⟩
  intro z h
  unfold intEmb at h
  have hz := congrArg Rat.den (Option.some.inj h)
  rw [Rat.den_intCast] at hz
  exact absurd hz (by decide)

/-- C6 (amended): provided no kept row's model or market contains the key
delimiter and every kept row's storage coerces to an integer, both storage
lists of every catalog product are strictly ascending (hence
duplicate-free) integer sequences holding exactly the distinct storage
sizes of that model's kept rows of the matching condition in the requested
market. -/
theorem C6_storages_sorted (used novo cs ps : List RawRow) (rnd : ℕ → ℚ) (market : String)
    (hp : PipeFreeRows used novo market)
    (hstor : ∀ r ∈ keptRows market "usado" used ++ keptRows market "novo" novo,
      ∃ z : ℤ, r.storage_gb = intEmb z)
    (p : OutProduct) (hmem : p ∈ (buildCatalog used novo cs ps rnd market).products) :
    (∃ zs : List ℤ, p.storages.usado = zs.map intEmb ∧
      List.Chain' (fun a b : ℤ => a < b) zs ∧
      ∀ z : ℤ, (z ∈ zs ↔ ∃ r ∈ keptRows market "usado" used ++ keptRows market "novo" novo,
        r.condition = "usado" ∧ r.model = p.model ∧ r.market = market ∧
          r.storage_gb = intEmb z)) ∧
    (∃ zs : List ℤ, p.storages.novo = zs.map intEmb ∧
      List.Chain' (fun a b : ℤ => a < b) zs ∧
      ∀ z : ℤ, (z ∈ zs ↔ ∃ r ∈ keptRows market "usado" used ++ keptRows market "novo" novo,
        r.condition = "novo" ∧ r.model = p.model ∧ r.market = market ∧
          r.storage_gb = intEmb z)) := by
  set rows := keptRows market "usado" used ++ keptRows market "novo" novo with hrows
  have hpipe3 : ∀ r ∈ rows, noPipe r.model ∧ noPipe r.condition ∧ noPipe r.market := by
    intro r hr
    rcases hp r hr with ⟨h1, h3⟩
    exact ⟨h1, noPipe_condition market used novo r hr, h3⟩
  have hprod : (buildCatalog used novo cs ps rnd market).products =
      assembleProducts (byModelOf rnd cs ps rows) (variantsOf rows) market := rfl
  rw [hprod, mem_assembleProducts_iff] at hmem
  rcases hmem with ⟨q, hq, hne, rfl⟩
  have hchar := fun x => storSet_mem_char rows q.model market hpipe3 x
  have hroundchar : ∀ (x : Option ℚ) (cond : String),
      (∃ r ∈ rows, r.condition = cond ∧ r.model = q.model ∧ r.market = market ∧
        jsNumber (numToStr r.storage_gb) = x) ↔
      (∃ r ∈ rows, r.condition = cond ∧ r.model = q.model ∧ r.market = market ∧
        r.storage_gb = x) := by
    intro x cond
    constructor
    · rintro ⟨r, hr, h1, h2, h3, h4⟩
      rw [roundtrip_storage _ (hstor r hr)] at h4
      exact ⟨r, hr, h1, h2, h3, h4⟩
    · rintro ⟨r, hr, h1, h2, h3, h4⟩
      rw [← roundtrip_storage _ (hstor r hr)] at h4
      exact ⟨r, hr, h1, h2, h3, h4⟩
  have hnodups := storFold_nodup q.model market (variantsOf rows) [] []
    List.nodup_nil List.nodup_nil
  constructor
  · have hint : ∀ x ∈ ((variantsOf rows).foldl (storFold q.model market) ([], [])).1,
        ∃ z : ℤ, x = intEmb z := by
      intro x hx
      rcases (hroundchar x "usado").mp ((hchar x).1.mp hx) with ⟨r, hr, _, _, _, h4⟩
      rcases hstor r hr with ⟨z, hz⟩
      exact ⟨z, by rw [← h4, hz]⟩
    rcases sorted_int_list _ hnodups.1 hint with ⟨zs, hsort, hchain, hmem2⟩
    refine ⟨zs, hsort, hchain, ?_⟩
    intro z
    rw [hmem2 z, (hchar (intEmb z)).1, hroundchar (intEmb z) "usado"]
    exact Iff.rfl
  · have hint : ∀ x ∈ ((variantsOf rows).foldl (storFold q.model market) ([], [])).2,
        ∃ z : ℤ, x = intEmb z := by
      intro x hx
      rcases (hroundchar x "novo").mp ((hchar x).2.mp hx) with ⟨r, hr, _, _, _, h4⟩
      rcases hstor r hr with ⟨z, hz⟩
      exact ⟨z, by rw [← h4, hz]⟩
    rcases sorted_int_list _ hnodups.2 hint with ⟨zs, hsort, hchain, hmem2⟩
    refine ⟨zs, hsort, hchain, ?_⟩
    intro z
    rw [hmem2 z, (hchar (intEmb z)).2, hroundchar (intEmb z) "novo"]
    exact Iff.rfl

/-- C6 witness: the amended storages theorem applied to the concrete
one-row catalog. -/
theorem C6_witness :
    (∃ zs : List ℤ, p0C6.storages.usado = zs.map intEmb ∧
      List.Chain' (fun a b : ℤ => a < b) zs ∧
      ∀ z : ℤ, (z ∈ zs ↔ ∃ r ∈ keptRows "AO" "usado" [rowUsedC3] ++ keptRows "AO" "novo" [],
        r.condition = "usado" ∧ r.model = p0C6.model ∧ r.market = "AO" ∧
          r.storage_gb = intEmb z)) ∧
    (∃ zs : List ℤ, p0C6.storages.novo = zs.map intEmb ∧
      List.Chain' (fun a b : ℤ => a < b) zs ∧
      ∀ z : ℤ, (z ∈ zs ↔ ∃ r ∈ keptRows "AO" "usado" [rowUsedC3] ++ keptRows "AO" "novo" [],
        r.condition = "novo" ∧ r.model = p0C6.model ∧ r.market = "AO" ∧
          r.storage_gb = intEmb z)) :=
  C6_storages_sorted [rowUsedC3] [] [] [] (fun _ => 0) "AO" (by decide)
    (by
      intro r hr
      have he : keptRows "AO" "usado" [rowUsedC3] ++ keptRows "AO" "novo" []
          = [normRow "AO" "usado" rowUsedC3] := rfl
      rw [he] at hr
      rw [List.mem_singleton.mp hr]
      exact ⟨128, by decide⟩)
    p0C6 (by decide)

/-- Exhaustive description of one minStep: either the state is kept (and
any matching numeric price at this entry is at least the current minimum),
or the state moves to this entry's price and currency (strictly below any
current minimum). -/
theorem minStep_spec (model market : String) (st : Option ℚ × String) (kv : String × VarEntry) :
    (minStep model market st kv = st ∧
      (∀ p : ℚ, keyMatch kv.1 model market = true → kv.2.price = some p →
        ∃ m : ℚ, st.1 = some m ∧ m ≤ p)) ∨
    (∃ p : ℚ, keyMatch kv.1 model market = true ∧ kv.2.price = some p ∧
      minStep model market st kv = (some p, kv.2.currency) ∧
      (∀ m : ℚ, st.1 = some m → p < m)) := by
  unfold minStep
  by_cases hk : keyMatch kv.1 model market = true
  · rw [if_pos hk]
    cases hp : kv.2.price with
    | none =>
      left
      refine ⟨rfl, ?_⟩
      intro p _ hpp
      cases hpp
    | some p =>
      cases hst : st.1 with
      | none =>
        right
        exact ⟨p, hk, rfl, rfl, by intro m hm; cases hm⟩
      | some m =>
        by_cases hlt : p < m
        · right
          refine ⟨p, hk, rfl, ?_, ?_⟩
          · show (if p < m then (some p, kv.2.currency) else st) = (some p, kv.2.currency)
            rw [if_pos hlt]
          · intro m2 hm2
            rw [show m2 = m from (Option.some.inj hm2).symm]
            exact hlt
        · left
          constructor
          · show (if p < m then (some p, kv.2.currency) else st) = st
            rw [if_neg hlt]
          · intro p2 _ hpp
            rw [show p2 = p from (Option.some.inj hpp).symm]
            exact ⟨m, rfl, not_lt.mp hlt⟩
  · rw [if_neg hk]
    left
    exact ⟨rfl, fun p hkm => absurd hkm hk⟩

/-- Full characterization of the minPriceForModel fold from any initial
state: a numeric result is a lower bound of every matching numeric price
and of the initial minimum, and is attained by a matching entry carrying
the result currency unless it is the initial state; a null result means
nothing matched with a numeric price and the state never moved. -/
theorem minFold_spec (model market : String) (vs : List (String × VarEntry)) :
    ∀ init : Option ℚ × String,
      (∀ q : ℚ, (vs.foldl (minStep model market) init).1 = some q →
        (∀ kv ∈ vs, keyMatch kv.1 model market = true →
            ∀ p : ℚ, kv.2.price = some p → q ≤ p) ∧
        (∀ m : ℚ, init.1 = some m → q ≤ m) ∧
        ((∃ kv ∈ vs, keyMatch kv.1 model market = true ∧ kv.2.price = some q ∧
            kv.2.currency = (vs.foldl (minStep model market) init).2) ∨
          (init.1 = some q ∧ init.2 = (vs.foldl (minStep model market) init).2))) ∧
      ((vs.foldl (minStep model market) init).1 = none →
        vs.foldl (minStep model market) init = init ∧
        ∀ kv ∈ vs, keyMatch kv.1 model market = true → kv.2.price = none) := by
  induction vs with
  | nil =>
    intro init
    constructor
    · intro q h
      have hm : ∀ m : ℚ, init.1 = some m → q ≤ m := by
        intro m hm2
        exact le_of_eq (Option.some.inj (hm2.symm.trans h)).symm
      exact ⟨(by intro kv hkv; cases hkv), hm, Or.inr ⟨h, rfl⟩⟩
    · intro _
      exact ⟨rfl, by intro kv hkv; cases hkv⟩
  | cons kv t ih =>
    intro init
    rw [List.foldl_cons]
    rcases minStep_spec model market init kv with ⟨hkeep, hskip⟩ | ⟨p, hk, hp, hstep, hlt⟩
    · rw [hkeep]
      rcases ih init with ⟨ihq, ihn⟩
      constructor
      · intro q h
        rcases ihq q h with ⟨hbound, hinit, hatt⟩
        refine ⟨?_, hinit, ?_⟩
        · intro kv2 hkv2 hm2 p2 hp2
          rcases List.mem_cons.mp hkv2 with rfl | hkv2
          · rcases hskip p2 hm2 hp2 with ⟨m, hm, hmp⟩
            exact le_trans (hinit m hm) hmp
          · exact hbound kv2 hkv2 hm2 p2 hp2
        · rcases hatt with ⟨kv2, hkv2, h2⟩ | h2
          · exact Or.inl ⟨kv2, List.mem_cons_of_mem kv hkv2, h2⟩
          · exact Or.inr h2
      · intro h
        rcases ihn h with ⟨heq, hall⟩
        refine ⟨heq, ?_⟩
        intro kv2 hkv2 hm2
        rcases List.mem_cons.mp hkv2 with rfl | hkv2
        · cases hpv : kv2.2.price with
          | none => rfl
          | some p2 =>
            rcases hskip p2 hm2 hpv with ⟨m, hm, _⟩
            rw [heq] at h
            rw [h] at hm
            cases hm
        · exact hall kv2 hkv2 hm2
    · rw [hstep]
      rcases ih (some p, kv.2.currency) with ⟨ihq, ihn⟩
      constructor
      · intro q h
        rcases ihq q h with ⟨hbound, hinit, hatt⟩
        have hqp : q ≤ p := hinit p rfl
        refine ⟨?_, ?_, ?_⟩
        · intro kv2 hkv2 hm2 p2 hp2
          rcases List.mem_cons.mp hkv2 with rfl | hkv2
          · rw [hp] at hp2
            rw [← Option.some.inj hp2]
            exact hqp
          · exact hbound kv2 hkv2 hm2 p2 hp2
        · intro m hm
          exact le_trans hqp (le_of_lt (hlt m hm))
        · rcases hatt with ⟨kv2, hkv2, h2⟩ | ⟨h1, h2⟩
          · exact Or.inl ⟨kv2, List.mem_cons_of_mem kv hkv2, h2⟩
          · refine Or.inl ⟨kv, List.mem_cons_self kv t, hk, ?_, h2⟩
            rw [hp, Option.some.inj h1]
      · intro h
        rcases ihn h with ⟨heq, _⟩
        rw [heq] at h
        cases h

/-- A successful model lookup returns a member with that model. -/
theorem lookupByModel_mem (items : List FeatItem) (m : String) (it : FeatItem)
    (h : lookupByModel items m = some it) : it ∈ items ∧ it.model = m := by
  unfold lookupByModel at h
  have h2 : it ∈ (items.filter fun it2 => decide (it2.model = m)).getLast? :=
    Option.mem_def.mpr h
  rcases List.mem_getLast?_eq_getLast h2 with ⟨hne, heq⟩
  have hmem : it ∈ items.filter fun it2 => decide (it2.model = m) := by
    rw [heq]
    exact List.getLast_mem hne
  rcases List.mem_filter.mp hmem with ⟨h1, h3⟩
  exact ⟨h1, of_decide_eq_true h3⟩

/-- Members of the preference pass of the ordering all come from items. -/
theorem orderedOf_pref_sub (items : List FeatItem) (preferred : List String) :
    ∀ acc : List FeatItem, (∀ x ∈ acc, x ∈ items) →
      ∀ x ∈ preferred.foldl (fun acc m =>
        match lookupByModel items m with
        | some it => acc ++ [it]
        | none => acc) acc, x ∈ items := by
  induction preferred with
  | nil => intro acc hacc x hx; exact hacc x hx
  | cons m t ih =>
    intro acc hacc x hx
    rw [List.foldl_cons] at hx
    cases hl : lookupByModel items m with
    | none =>
      rw [hl] at hx
      exact ih acc hacc x hx
    | some it =>
      rw [hl] at hx
      refine ih (acc ++ [it]) ?_ x hx
      intro y hy
      rcases List.mem_append.mp hy with hy | hy
      · exact hacc y hy
      · rw [List.mem_singleton.mp hy]
        exact (lookupByModel_mem items m it hl).1

/-- Members of the deduplicating append pass come from the accumulator or
the traversed list. -/
theorem dedup_fold_sub (l : List FeatItem) :
    ∀ acc : List FeatItem,
      ∀ x ∈ l.foldl (fun acc it => if it ∈ acc then acc else acc ++ [it]) acc,
        x ∈ acc ∨ x ∈ l := by
  induction l with
  | nil => intro acc x hx; exact Or.inl hx
  | cons it t ih =>
    intro acc x hx
    rw [List.foldl_cons] at hx
    by_cases hmem : it ∈ acc
    · rw [if_pos hmem] at hx
      rcases ih acc x hx with h | h
      · exact Or.inl h
      · exact Or.inr (List.mem_cons_of_mem it h)
    · rw [if_neg hmem] at hx
      rcases ih (acc ++ [it]) x hx with h | h
      · rcases List.mem_append.mp h with h | h
        · exact Or.inl h
        · exact Or.inr (List.mem_cons.mpr (Or.inl (List.mem_singleton.mp h)))
      · exact Or.inr (List.mem_cons_of_mem it h)

/-- Members of the ordered list come from the item list. -/
theorem orderedOf_sub (items : List FeatItem) (preferred : List String) :
    ∀ x ∈ orderedOf items preferred, x ∈ items := by
  intro x hx
  unfold orderedOf at hx
  rcases dedup_fold_sub items _ x hx with h | h
  · exact orderedOf_pref_sub items preferred [] (by intro y hy; cases hy) x h
  · exact h

/-- Members of the item list come from availability-filtered products with
a numeric minimum. -/
theorem mem_itemsOf (cat : Catalog) (avail : List String) (market baseUrl : String)
    (it : FeatItem) (h : it ∈ itemsOf cat avail market baseUrl) :
    ∃ p ∈ cat.products, p.model ∈ avail ∧ it = featItemOf cat.variants market baseUrl p ∧
      it.min_price ≠ none := by
  unfold itemsOf at h
  rcases List.mem_filter.mp h with ⟨h1, h2⟩
  rcases List.mem_map.mp h1 with ⟨p, hp, rfl⟩
  rcases List.mem_filter.mp hp with ⟨hp1, hp2⟩
  exact ⟨p, hp1, of_decide_eq_true hp2, rfl, of_decide_eq_true h2⟩

/-- The byModel registry has pairwise distinct models. -/
theorem byModelOf_nodup_aux (rnd : ℕ → ℚ) (cs ps : List RawRow) (rows : List NRow) :
    ∀ st : List CatProduct × ℕ, (st.1.map fun q => q.model).Nodup →
      (((rows.foldl (ensureProduct rnd cs ps) st).1.map fun q => q.model)).Nodup := by
  induction rows with
  | nil => intro st h; exact h
  | cons r t ih =>
    intro st h
    rw [List.foldl_cons]
    refine ih (ensureProduct rnd cs ps st r) ?_
    unfold ensureProduct
    by_cases hany : st.1.any (fun p => decide (p.model = r.model))
    · rw [if_pos hany]
      exact h
    · rw [if_neg hany]
      rw [List.map_append, List.map_singleton, List.nodup_append]
      refine ⟨h, List.nodup_singleton _, ?_⟩
      intro M hM hM2
      rcases List.mem_map.mp hM with ⟨q, hq, rfl⟩
      have hMr : q.model = r.model := by
        have := List.mem_singleton.mp hM2
        simpa using this
      rw [List.any_eq_true] at hany
      exact hany ⟨q, hq, decide_eq_true hMr⟩

/-- The models of the byModel registry are pairwise distinct. -/
theorem byModelOf_nodup (rnd : ℕ → ℚ) (cs ps : List RawRow) (rows : List NRow) :
    ((byModelOf rnd cs ps rows).map fun q => q.model).Nodup :=
  byModelOf_nodup_aux rnd cs ps rows ([], 0) List.nodup_nil

/-- Catalog product models are pairwise distinct. -/
theorem assembleProducts_nodup (bm : List CatProduct) (vs : List (String × VarEntry))
    (market : String) (h : (bm.map fun q => q.model).Nodup) :
    ((assembleProducts bm vs market).map fun p => p.model).Nodup := by
  induction bm with
  | nil => exact List.nodup_nil
  | cons q t ih =>
    rw [List.map_cons, List.nodup_cons] at h
    unfold assembleProducts
    rw [List.filterMap_cons]
    rcases h with ⟨hq, ht⟩
    cases hcase : (if (vs.foldl (storFold q.model market) ([], [])).1.isEmpty &&
        (vs.foldl (storFold q.model market) ([], [])).2.isEmpty then none
      else some (assembledOf q vs market)) with
    | none => exact ih ht
    | some b =>
      rw [List.map_cons, List.nodup_cons]
      refine ⟨?_, ih ht⟩
      intro hb
      rcases List.mem_map.mp hb with ⟨p2, hp2, hmod⟩
      rcases mem_products_descends t vs market p2 hp2 with ⟨q2, hq2, _, hm2, _⟩
      have hbq : b.model = q.model := by
        by_cases hemp : ((vs.foldl (storFold q.model market) ([], [])).1.isEmpty &&
            (vs.foldl (storFold q.model market) ([], [])).2.isEmpty) = true
        · rw [if_pos hemp] at hcase
          cases hcase
        · rw [if_neg hemp] at hcase
          rw [← Option.some.inj hcase]
          rfl
      apply hq
      have heq : q.model = q2.model := hbq.symm.trans (hmod.symm.trans hm2)
      rw [heq]
      exact List.mem_map_of_mem _ hq2

/-- Featured item models are pairwise distinct. -/
theorem itemsOf_nodup (cat : Catalog) (avail : List String) (market baseUrl : String)
    (h : (cat.products.map fun p => p.model).Nodup) :
    ((itemsOf cat avail market baseUrl).map fun it => it.model).Nodup := by
  unfold itemsOf
  have hcomp : ((fun it : FeatItem => it.model) ∘ featItemOf cat.variants market baseUrl) =
      fun p : OutProduct => p.model := rfl
  have hfil : (((cat.products.filter fun p => decide (p.model ∈ avail)).map
      (featItemOf cat.variants market baseUrl)).map fun it => it.model).Nodup := by
    rw [List.map_map, hcomp]
    exact ((List.filter_sublist cat.products).map fun p => p.model).nodup h
  exact ((List.filter_sublist _).map fun it : FeatItem => it.model).nodup hfil

/-- C4, counterexample: the featured item for model a reports minimum price
50, yet the only kept row (and hence variant-index entry) of model a in
market AO has price 100; the 50 belongs to the model a|x|9|AO, whose key
splits into components that spoof a match, so the reported minimum is NOT
the minimum over the entries whose model and market match. -/
theorem C4_counterexample :
    ((selectFeatured [rowC4a, rowC4b] [] [] [] (fun _ => 0) "AO" "luanda" "" [] none).items.map
        fun it => (it.model, it.min_price)) = [("a", some 50)] ∧
      (((keptRows "AO" "usado" [rowC4a, rowC4b]).filter fun r => decide (r.model = "a")).map
        fun r => r.price) = [some 100] ∧
      ¬ ((50 : ℚ) = 100) := by
  refine ⟨rfl, rfl, by norm_num⟩

/-- C4 (amended): provided no kept row's model or market contains the key
delimiter, every featured item's minimum price is numeric, is attained by a
variant-index entry whose key matches the item's model and the requested
market (that entry also supplies the carried currency), and is a lower
bound of every matching entry's price; matching an entry's key is then the
same as coming from a kept row with that model and market.  A product none
of whose entries match is dropped from the featured items. -/
theorem C4_min_price (used novo cs ps : List RawRow) (rnd : ℕ → ℚ)
    (market city baseUrl : String) (preferred : List String) (countQ : Option String)
    (hp : PipeFreeRows used novo market) :
    (∀ it ∈ (selectFeatured used novo cs ps rnd market city baseUrl preferred countQ).items,
      ∃ q : ℚ, it.min_price = some q ∧
        (∃ kv ∈ (buildCatalog used novo cs ps rnd market).variants,
          keyMatch kv.1 it.model market = true ∧ kv.2.price = some q ∧
            kv.2.currency = it.currency) ∧
        (∀ kv ∈ (buildCatalog used novo cs ps rnd market).variants,
          keyMatch kv.1 it.model market = true → ∀ p : ℚ, kv.2.price = some p → q ≤ p) ∧
        (∀ kv ∈ (buildCatalog used novo cs ps rnd market).variants,
          (keyMatch kv.1 it.model market = true ↔
            ∃ r ∈ keptRows market "usado" used ++ keptRows market "novo" novo,
              kv.1 = keyOf r ∧ r.model = it.model ∧ r.market = market))) ∧
    (∀ p ∈ (buildCatalog used novo cs ps rnd market).products,
      (∀ kv ∈ (buildCatalog used novo cs ps rnd market).variants,
        keyMatch kv.1 p.model market = false) →
      ∀ it ∈ (selectFeatured used novo cs ps rnd market city baseUrl preferred countQ).items,
        it.model ≠ p.model) := by
  set rows := keptRows market "usado" used ++ keptRows market "novo" novo with hrows
  have hvars : (buildCatalog used novo cs ps rnd market).variants = variantsOf rows := rfl
  have hitems : (selectFeatured used novo cs ps rnd market city baseUrl preferred countQ).items
      = (orderedOf (itemsOf (buildCatalog used novo cs ps rnd market)
          (modelsAvailable used novo city) market baseUrl) preferred).take
        (sliceLen (clampCount countQ)) := rfl
  have hmemitems : ∀ it ∈ (selectFeatured used novo cs ps rnd market city baseUrl
      preferred countQ).items,
      ∃ p ∈ (buildCatalog used novo cs ps rnd market).products,
        it = featItemOf (variantsOf rows) market baseUrl p ∧ it.min_price ≠ none := by
    intro it hit
    rw [hitems] at hit
    have hit2 := orderedOf_sub _ _ it (List.mem_of_mem_take hit)
    rcases mem_itemsOf _ _ _ _ it hit2 with ⟨p, hpprod, _, heq, hmin⟩
    exact ⟨p, hpprod, heq, hmin⟩
  constructor
  · intro it hit
    rcases hmemitems it hit with ⟨p, hpprod, rfl, hmin⟩
    have hfold : (featItemOf (variantsOf rows) market baseUrl p).min_price
        = ((variantsOf rows).foldl (minStep p.model market) (none, "AOA")).1 := rfl
    cases hq : ((variantsOf rows).foldl (minStep p.model market) (none, "AOA")).1 with
    | none => exact absurd (hfold.trans hq) hmin
    | some q =>
      rcases (minFold_spec p.model market (variantsOf rows) (none, "AOA")).1 q hq with
        ⟨hbound, _, hatt⟩
      rcases hatt with ⟨kv, hkv, hkm, hpr, hcur⟩ | ⟨h0, _⟩
      · refine ⟨q, hfold.trans hq, ⟨kv, hkv, hkm, hpr, ?_⟩, ?_, ?_⟩
        · rw [hcur]
          rfl
        · intro kv2 hkv2 hm2 p2 hp2
          exact hbound kv2 hkv2 hm2 p2 hp2
        · intro kv2 hkv2
          constructor
          · intro hm2
            rcases mem_variantsOf rows kv2 hkv2 with ⟨r, hr, rfl⟩
            rcases hp r hr with ⟨hnm, hnk⟩
            rcases (keyMatch_keyOf r hnm (noPipe_condition market used novo r hr) hnk
              _ market).mp hm2 with ⟨hrm, hrmkt⟩
            exact ⟨r, hr, rfl, hrm, hrmkt⟩
          · rintro ⟨r, hr, hk1, hm1, hmk1⟩
            rcases hp r hr with ⟨hnm, hnk⟩
            rw [hk1]
            exact (keyMatch_keyOf r hnm (noPipe_condition market used novo r hr) hnk
              _ market).mpr ⟨hm1, hmk1⟩
      · cases h0
  · intro p hpprod hnone it hit hmodeq
    rcases hmemitems it hit with ⟨p2, hp2prod, rfl, hmin⟩
    have hnods : (((buildCatalog used novo cs ps rnd market).products).map
        fun x => x.model).Nodup :=
      assembleProducts_nodup _ _ _ (byModelOf_nodup rnd cs ps rows)
    have hp2p : p2 = p := by
      refine List.inj_on_of_nodup_map hnods hp2prod hpprod ?_
      exact hmodeq
    subst hp2p
    cases hq : ((variantsOf rows).foldl (minStep p2.model market) (none, "AOA")).1 with
    | none =>
      exact hmin (show (featItemOf (variantsOf rows) market baseUrl p2).min_price = none
        from hq)
    | some q =>
      rcases (minFold_spec p2.model market (variantsOf rows) (none, "AOA")).1 q hq with
        ⟨_, _, hatt⟩
      rcases hatt with ⟨kv, hkv, hkm, _, _⟩ | ⟨h0, _⟩
      · rw [hnone kv hkv] at hkm
        cases hkm
      · cases h0

/-- C4 witness: the amended theorem applied to the adversary-free one-row
featured run. -/
theorem C4_witness :
    (∀ it ∈ (selectFeatured [rowC4a] [] [] [] (fun _ => 0) "AO" "luanda" "" [] none).items,
      ∃ q : ℚ, it.min_price = some q ∧
        (∃ kv ∈ (buildCatalog [rowC4a] [] [] [] (fun _ => 0) "AO").variants,
          keyMatch kv.1 it.model "AO" = true ∧ kv.2.price = some q ∧
            kv.2.currency = it.currency) ∧
        (∀ kv ∈ (buildCatalog [rowC4a] [] [] [] (fun _ => 0) "AO").variants,
          keyMatch kv.1 it.model "AO" = true → ∀ p : ℚ, kv.2.price = some p → q ≤ p) ∧
        (∀ kv ∈ (buildCatalog [rowC4a] [] [] [] (fun _ => 0) "AO").variants,
          (keyMatch kv.1 it.model "AO" = true ↔
            ∃ r ∈ keptRows "AO" "usado" [rowC4a] ++ keptRows "AO" "novo" [],
              kv.1 = keyOf r ∧ r.model = it.model ∧ r.market = "AO"))) ∧
    (∀ p ∈ (buildCatalog [rowC4a] [] [] [] (fun _ => 0) "AO").products,
      (∀ kv ∈ (buildCatalog [rowC4a] [] [] [] (fun _ => 0) "AO").variants,
        keyMatch kv.1 p.model "AO" = false) →
      ∀ it ∈ (selectFeatured [rowC4a] [] [] [] (fun _ => 0) "AO" "luanda" "" [] none).items,
        it.model ≠ p.model) :=
  C4_min_price [rowC4a] [] [] [] (fun _ => 0) "AO" "luanda" "" [] none (by decide)

/-- The preference pass is a filterMap of lookups appended to the
accumulator. -/
theorem pref_fold_eq (items : List FeatItem) (preferred : List String) :
    ∀ acc : List FeatItem,
      preferred.foldl (fun acc m =>
        match lookupByModel items m with
        | some it => acc ++ [it]
        | none => acc) acc = acc ++ preferred.filterMap (lookupByModel items) := by
  induction preferred with
  | nil => intro acc; rw [List.filterMap_nil, List.append_nil]; rfl
  | cons m t ih =>
    intro acc
    rw [List.foldl_cons, List.filterMap_cons]
    cases hl : lookupByModel items m with
    | none => exact ih acc
    | some it =>
      rw [ih (acc ++ [it]), List.append_assoc]
      rfl

/-- The deduplicating append of a duplicate-free list keeps exactly the
members not already accumulated, in order. -/
theorem dedup_fold_eq (l : List FeatItem) :
    ∀ acc : List FeatItem, l.Nodup →
      l.foldl (fun a it => if it ∈ a then a else a ++ [it]) acc
        = acc ++ l.filter fun it => decide (it ∉ acc) := by
  induction l with
  | nil => intro acc _; rw [List.filter_nil, List.append_nil]; rfl
  | cons it t ih =>
    intro acc hnod
    rw [List.nodup_cons] at hnod
    rcases hnod with ⟨hhead, htail⟩
    rw [List.foldl_cons, List.filter_cons]
    by_cases hmem : it ∈ acc
    · rw [if_pos hmem]
      have hdec : decide (it ∉ acc) = false := by
        simp [hmem]
      rw [hdec]
      simp only [Bool.false_eq_true, if_false]
      exact ih acc htail
    · rw [if_neg hmem]
      have hdec : decide (it ∉ acc) = true := by
        simp [hmem]
      rw [hdec]
      simp only [if_true]
      rw [ih (acc ++ [it]) htail]
      have hfil : (t.filter fun x => decide (x ∉ acc ++ [it]))
          = t.filter fun x => decide (x ∉ acc) := by
        apply List.filter_congr
        intro x hx
        have hxne : x ≠ it := fun e => hhead (e ▸ hx)
        by_cases hxa : x ∈ acc
        · simp [hxa]
        · simp [hxa, hxne]
      rw [hfil, List.append_assoc]
      rfl

/-- The filter of items down to one model is the singleton of a member with
that model, when the item models are pairwise distinct. -/
theorem filter_model_singleton (items : List FeatItem)
    (hnod : (items.map fun it => it.model).Nodup) (it : FeatItem) (hit : it ∈ items) :
    (items.filter fun x => decide (x.model = it.model)) = [it] := by
  induction items with
  | nil => cases hit
  | cons a t ih =>
    rw [List.map_cons, List.nodup_cons] at hnod
    rcases hnod with ⟨hhead, htail⟩
    rw [List.filter_cons]
    rcases List.mem_cons.mp hit with rfl | hit2
    · have hdec : decide (it.model = it.model) = true := by simp
      rw [hdec]
      simp only [if_true]
      have hnone : (t.filter fun x => decide (x.model = it.model)) = [] := by
        apply List.filter_eq_nil_iff.mpr
        intro x hx
        simp only [decide_eq_true_eq]
        intro he
        exact hhead (he ▸ List.mem_map_of_mem (fun y => y.model) hx)
      rw [hnone]
    · have hne : a.model ≠ it.model := by
        intro he
        exact hhead (he ▸ List.mem_map_of_mem (fun y => y.model) hit2)
      have hdec : decide (a.model = it.model) = false := by
        simp [hne]
      rw [hdec]
      simp only [Bool.false_eq_true, if_false]
      exact ih htail hit2

/-- Looking up a member's own model returns that member, when the item
models are pairwise distinct. -/
theorem lookupByModel_self (items : List FeatItem)
    (hnod : (items.map fun it => it.model).Nodup) (it : FeatItem) (hit : it ∈ items) :
    lookupByModel items it.model = some it := by
  unfold lookupByModel
  rw [filter_model_singleton items hnod it hit]
  rfl

/-- Membership in the preference selection is having one's model among the
preferred models, when the item models are pairwise distinct. -/
theorem mem_prefSel_iff (items : List FeatItem)
    (hnod : (items.map fun it => it.model).Nodup) (preferred : List String) (it : FeatItem)
    (hit : it ∈ items) :
    it ∈ preferred.filterMap (lookupByModel items) ↔ it.model ∈ preferred := by
  constructor
  · intro h
    rcases List.mem_filterMap.mp h with ⟨m, hm, hl⟩
    rw [(lookupByModel_mem items m it hl).2]
    exact hm
  · intro h
    exact List.mem_filterMap.mpr ⟨it.model, h, lookupByModel_self items hnod it hit⟩

/-- The preference selection is duplicate-free for a duplicate-free
preference list. -/
theorem prefSel_nodup (items : List FeatItem) (preferred : List String)
    (hpref : preferred.Nodup) :
    (preferred.filterMap (lookupByModel items)).Nodup := by
  induction preferred with
  | nil => exact List.nodup_nil
  | cons m t ih =>
    rw [List.nodup_cons] at hpref
    rcases hpref with ⟨hhead, htail⟩
    rw [List.filterMap_cons]
    cases hl : lookupByModel items m with
    | none => exact ih htail
    | some it =>
      rw [List.nodup_cons]
      refine ⟨?_, ih htail⟩
      intro hmem
      rcases List.mem_filterMap.mp hmem with ⟨m2, hm2, hl2⟩
      have h1 := (lookupByModel_mem items m it hl).2
      have h2 := (lookupByModel_mem items m2 it hl2).2
      exact hhead (h1 ▸ h2 ▸ hm2)

/-- The ordering pass puts the looked-up preferred items first, then the
remaining items in original order, when item models are pairwise
distinct. -/
theorem orderedOf_eq (items : List FeatItem) (preferred : List String)
    (hnod : (items.map fun it => it.model).Nodup) :
    orderedOf items preferred = preferred.filterMap (lookupByModel items) ++
      items.filter fun it => decide (it.model ∉ preferred) := by
  unfold orderedOf
  rw [pref_fold_eq items preferred [], List.nil_append,
    dedup_fold_eq items _ (List.Nodup.of_map _ hnod)]
  congr 1
  apply List.filter_congr
  intro it hit
  have hiff := mem_prefSel_iff items hnod preferred it hit
  by_cases h : it.model ∈ preferred
  · have h2 : it ∈ preferred.filterMap (lookupByModel items) := hiff.mpr h
    simp [h, h2]
  · have h2 : it ∉ preferred.filterMap (lookupByModel items) := fun hc => h (hiff.mp hc)
    simp [h, h2]

/-- The ordered list is duplicate-free for distinct item models and a
duplicate-free preference list. -/
theorem orderedOf_nodup (items : List FeatItem) (preferred : List String)
    (hnod : (items.map fun it => it.model).Nodup) (hpref : preferred.Nodup) :
    (orderedOf items preferred).Nodup := by
  rw [orderedOf_eq items preferred hnod]
  rw [List.nodup_append]
  refine ⟨prefSel_nodup items preferred hpref,
    (List.filter_sublist items).nodup (List.Nodup.of_map _ hnod), ?_⟩
  intro x hx1 hx2
  rcases List.mem_filter.mp hx2 with ⟨_, hdec⟩
  rcases List.mem_filterMap.mp hx1 with ⟨m, hm, hl⟩
  rcases lookupByModel_mem items m x hl with ⟨_, hxm⟩
  exact (of_decide_eq_true hdec) (hxm ▸ hm)

/-- The truncation length is bounded by the clamped count. -/
theorem sliceLen_le (c : ℚ) (h1 : 1 ≤ c) : ((sliceLen c : ℕ) : ℚ) ≤ c := by
  unfold sliceLen
  have h0 : (0 : ℤ) ≤ Rat.floor c := Rat.le_floor.mpr (by push_cast; linarith)
  have hfl : ((Rat.floor c : ℤ) : ℚ) ≤ c := Rat.le_floor.mp (le_refl _)
  calc (((Rat.floor c).toNat : ℕ) : ℚ) = ((Rat.floor c : ℤ) : ℚ) := by
        rw [← Int.toNat_of_nonneg h0]
        push_cast
        rw [Int.toNat_of_nonneg h0]
    _ ≤ c := hfl

/-- C7, counterexample: the claim clamps the supplied count into [1, 20],
so a supplied count of 0 would clamp to 1; but the code's clamp treats a
zero (or unparsable) count as absent via JavaScript truthiness and falls
back to 8, so a request with count 0 over two available models returns 2
items, exceeding the claimed clamp of 1. -/
theorem C7_counterexample :
    (selectFeatured [rowC7a, rowC7b] [] [] [] (fun _ => 0) "AO" "luanda" "" []
        (some "0")).items.length = 2 ∧
      jsNumber "0" = some 0 ∧ clampCountClaim 0 = 1 ∧
      clampCount (some "0") = 8 ∧ ¬ ((2 : ℚ) ≤ 1) := by
  refine ⟨rfl, by decide, by decide, by decide, by norm_num⟩

/-- C7 (amended): the featured count is clamped as
max(1, min(20, n)) where a missing, zero or unparsable count query falls
back to 8 (so a supplied count of 0 yields 8, not 1); the returned items
never exceed that clamp; and with a duplicate-free preference list, the
items are the truncation of: the preferred models present in the filtered
item set first, in preference order, followed by the remaining items in
their original order, with no duplicates. -/
theorem C7_featured_order (used novo cs ps : List RawRow) (rnd : ℕ → ℚ)
    (market city baseUrl : String) (preferred : List String) (countQ : Option String)
    (hpref : preferred.Nodup) :
    (selectFeatured used novo cs ps rnd market city baseUrl preferred countQ).count
        = clampCount countQ ∧
      (countQ = none → clampCount countQ = 8) ∧
      1 ≤ clampCount countQ ∧ clampCount countQ ≤ 20 ∧
      (((selectFeatured used novo cs ps rnd market city baseUrl preferred countQ).items.length
          : ℕ) : ℚ) ≤ clampCount countQ ∧
      (selectFeatured used novo cs ps rnd market city baseUrl preferred countQ).items
        = (preferred.filterMap (lookupByModel (itemsOf (buildCatalog used novo cs ps rnd market)
              (modelsAvailable used novo city) market baseUrl)) ++
            (itemsOf (buildCatalog used novo cs ps rnd market)
              (modelsAvailable used novo city) market baseUrl).filter
              fun it => decide (it.model ∉ preferred)).take
            (sliceLen (clampCount countQ)) ∧
      (selectFeatured used novo cs ps rnd market city baseUrl preferred countQ).items.Nodup := by
  have hnodmodels : ((itemsOf (buildCatalog used novo cs ps rnd market)
      (modelsAvailable used novo city) market baseUrl).map fun it => it.model).Nodup :=
    itemsOf_nodup _ _ _ _ (assembleProducts_nodup _ _ _ (byModelOf_nodup rnd cs ps _))
  have hitems : (selectFeatured used novo cs ps rnd market city baseUrl preferred countQ).items
      = (orderedOf (itemsOf (buildCatalog used novo cs ps rnd market)
          (modelsAvailable used novo city) market baseUrl) preferred).take
        (sliceLen (clampCount countQ)) := rfl
  have hclamp1 : 1 ≤ clampCount countQ := le_max_left 1 _
  have hclamp20 : clampCount countQ ≤ 20 := by
    unfold clampCount
    exact max_le (by norm_num) (min_le_left _ _)
  refine ⟨rfl, ?_, hclamp1, hclamp20, ?_, ?_, ?_⟩
  · intro h
    subst h
    decide
  · rw [hitems]
    calc (((orderedOf (itemsOf (buildCatalog used novo cs ps rnd market)
          (modelsAvailable used novo city) market baseUrl) preferred).take
            (sliceLen (clampCount countQ))).length : ℚ)
        ≤ ((sliceLen (clampCount countQ) : ℕ) : ℚ) := by
          exact_mod_cast List.length_take_le _ _
      _ ≤ clampCount countQ := sliceLen_le _ hclamp1
  · rw [hitems, orderedOf_eq _ preferred hnodmodels]
  · rw [hitems]
    exact (List.take_sublist _ _).nodup (orderedOf_nodup _ preferred hnodmodels hpref)

/-- C7 witness: the amended ordering theorem applied to the two-row
featured run with one preferred model. -/
theorem C7_witness :
    (selectFeatured [rowC7a, rowC7b] [] [] [] (fun _ => 0) "AO" "luanda" "" ["B2"]
        none).count = clampCount none ∧
      ((none : Option String) = none → clampCount none = 8) ∧
      1 ≤ clampCount none ∧ clampCount none ≤ 20 ∧
      (((selectFeatured [rowC7a, rowC7b] [] [] [] (fun _ => 0) "AO" "luanda" "" ["B2"]
          none).items.length : ℕ) : ℚ) ≤ clampCount none ∧
      (selectFeatured [rowC7a, rowC7b] [] [] [] (fun _ => 0) "AO" "luanda" "" ["B2"]
          none).items
        = (["B2"].filterMap (lookupByModel (itemsOf
              (buildCatalog [rowC7a, rowC7b] [] [] [] (fun _ => 0) "AO")
              (modelsAvailable [rowC7a, rowC7b] [] "luanda") "AO" "")) ++
            (itemsOf (buildCatalog [rowC7a, rowC7b] [] [] [] (fun _ => 0) "AO")
              (modelsAvailable [rowC7a, rowC7b] [] "luanda") "AO" "").filter
              fun it => decide (it.model ∉ ["B2"])).take (sliceLen (clampCount none)) ∧
      (selectFeatured [rowC7a, rowC7b] [] [] [] (fun _ => 0) "AO" "luanda" "" ["B2"]
          none).items.Nodup :=
  C7_featured_order [rowC7a, rowC7b] [] [] [] (fun _ => 0) "AO" "luanda" "" ["B2"] none
    (List.nodup_singleton "B2")

/-- Membership in a string Set after one insert. -/
theorem mem_strInsert (l : List String) (x y : String) :
    y ∈ strInsert l x ↔ y ∈ l ∨ y = x := by
  unfold strInsert
  by_cases h : x ∈ l
  · rw [if_pos h]
    constructor
    · exact Or.inl
    · rintro (hy | rfl)
      · exact hy
      · exact h
  · rw [if_neg h]
    simp

/-- Membership in the availability fold from any accumulator. -/
theorem mem_avail_fold (city : String) (rows : List RawRow) :
    ∀ acc : List String, ∀ M : String,
      (M ∈ rows.foldl (fun acc r =>
        if decide (availModelOf r ≠ "") && strContains (availDispOf r) city
        then strInsert acc (availModelOf r) else acc) acc ↔
      M ∈ acc ∨ ∃ r ∈ rows, availModelOf r = M ∧ M ≠ "" ∧
        strContains (availDispOf r) city = true) := by
  induction rows with
  | nil => intro acc M; simp
  | cons r t ih =>
    intro acc M
    rw [List.foldl_cons]
    by_cases hc : (decide (availModelOf r ≠ "") && strContains (availDispOf r) city) = true
    · rw [if_pos hc]
      rw [ih (strInsert acc (availModelOf r)) M, mem_strInsert]
      rw [Bool.and_eq_true] at hc
      rcases hc with ⟨h1, h2⟩
      have h1p : availModelOf r ≠ "" := of_decide_eq_true h1
      constructor
      · rintro ((hM | rfl) | ⟨r2, hr2, h3⟩)
        · exact Or.inl hM
        · exact Or.inr ⟨r, List.mem_cons_self r t, rfl, h1p, h2⟩
        · exact Or.inr ⟨r2, List.mem_cons_of_mem r hr2, h3⟩
      · rintro (hM | ⟨r2, hr2, h3, h4, h5⟩)
        · exact Or.inl (Or.inl hM)
        · rcases List.mem_cons.mp hr2 with rfl | hr2
          · exact Or.inl (Or.inr h3.symm)
          · exact Or.inr ⟨r2, hr2, h3, h4, h5⟩
    · rw [if_neg hc]
      rw [ih acc M]
      constructor
      · rintro (hM | ⟨r2, hr2, h3⟩)
        · exact Or.inl hM
        · exact Or.inr ⟨r2, List.mem_cons_of_mem r hr2, h3⟩
      · rintro (hM | ⟨r2, hr2, h3, h4, h5⟩)
        · exact Or.inl hM
        · rcases List.mem_cons.mp hr2 with rfl | hr2
          · exact absurd ((Bool.and_eq_true _ _).symm ▸
              (⟨decide_eq_true (h3 ▸ h4), h5⟩ : _ ∧ _)) hc
          · exact Or.inr ⟨r2, hr2, h3, h4, h5⟩

/-- C8, counterexample: a row naming its model only under the modelo alias
is retained in the catalog with matching availability Luanda, yet the
availability re-scan reads only the model/Model fields, so the model never
enters the availability set and the featured list stays empty. -/
theorem C8_counterexample :
    ((keptRows "AO" "usado" [rowC8alias]).map fun r => (r.model, r.disponibilidade))
        = [("iPhone 13", "Luanda")] ∧
      strContains (lowerStr "Luanda") "luanda" = true ∧
      modelsAvailable [rowC8alias] [] "luanda" = [] ∧
      (selectFeatured [rowC8alias] [] [] [] (fun _ => 0) "AO" "luanda" "" [] none).items
        = [] := by
  refine ⟨rfl, by decide, rfl, rfl⟩

/-- C8 (amended): the availability set holds exactly the nonempty canonical
models read from the model/Model fields (only) of rows of either sheet
whose disponibilidade/Disponibilidade field, lower-cased, contains the
lower-cased city as a substring; in particular a Luanda, Benguela row is
included for city luanda and a Huambo row is not.  Rows retained in the
catalog under other model aliases (product, product_name, product_id,
modelo) are not seen by the re-scan. -/
theorem C8_availability (used novo : List RawRow) (city M : String) :
    (M ∈ modelsAvailable used novo city ↔
      M ≠ "" ∧ ∃ r ∈ used ++ novo, availModelOf r = M ∧
        strContains (availDispOf r) city = true) ∧
      "iPhone 13" ∈ modelsAvailable [rowC8L] [] "luanda" ∧
      "iPhone 13" ∉ modelsAvailable [rowC8H] [] "luanda" := by
  refine ⟨?_, by decide, by decide⟩
  unfold modelsAvailable
  rw [mem_avail_fold city (used ++ novo) [] M]
  constructor
  · rintro (hM | ⟨r, hr, h1, h2, h3⟩)
    · cases hM
    · exact ⟨h2, r, hr, h1, h3⟩
  · rintro ⟨h2, r, hr, h1, h3⟩
    exact Or.inr ⟨r, hr, h1, h2, h3⟩
